import Mathlib

/-!
Shallow embedding of `src/main.py` (spreadsheet-cleaner) and proofs about it.

Python strings are modelled as lists of Unicode code points (`List Nat`).
The character classes and case maps model Python's behaviour on the ASCII
range (`str.strip`, the regex class `\s`, `str.upper/lower/title`,
`str.isdigit`), which is the range the repository's data and the spec's
scenarios exercise.
-/

/-- Code points of a string literal; used to write concrete test inputs. -/
def codes (s : String) : List Nat := s.data.map Char.toNat

/-- Python whitespace (`\s`, `str.strip()`), ASCII range: tab, newline,
vertical tab, form feed, carriage return, space. -/
def pyIsSpace (n : Nat) : Bool :=
  decide (n = 9 ∨ n = 10 ∨ n = 11 ∨ n = 12 ∨ n = 13 ∨ n = 32)

def isUpperCode (n : Nat) : Bool := decide (65 ≤ n ∧ n ≤ 90)

def isLowerCode (n : Nat) : Bool := decide (97 ≤ n ∧ n ≤ 122)

/-- `str.lower` on one character (ASCII). -/
def lowerN (n : Nat) : Nat := if isUpperCode n then n + 32 else n

/-- `str.upper` on one character (ASCII). -/
def upperN (n : Nat) : Nat := if isLowerCode n then n - 32 else n

/-- A cased (letter) character, as used by `str.title` (ASCII). -/
def isAlphaN (n : Nat) : Bool := isUpperCode n || isLowerCode n

/-- `\d` / `str.isdigit` on one character (ASCII). -/
def isDigitN (n : Nat) : Bool := decide (48 ≤ n ∧ n ≤ 57)

/-- Remove trailing whitespace (the right half of `str.strip()`). -/
def dropTrailWS : List Nat → List Nat
  | [] => []
  | c :: rest =>
    match dropTrailWS rest with
    | [] => if pyIsSpace c then [] else [c]
    | r => c :: r

/-- `str.strip()`: remove leading and trailing whitespace. -/
def pyStrip (s : List Nat) : List Nat := dropTrailWS (s.dropWhile pyIsSpace)

/-- `re.sub(r"\s+", " ", text)`: collapse every whitespace run to one space.
The flag records whether we are inside a whitespace run. -/
def collapseWS : Bool → List Nat → List Nat
  | _, [] => []
  | b, c :: rest =>
    if pyIsSpace c then
      if b then collapseWS true rest else 32 :: collapseWS true rest
    else c :: collapseWS false rest

/-- `normalise_spaces` from src/main.py: strip, then collapse whitespace runs. -/
def normalise_spaces (s : List Nat) : List Nat := collapseWS false (pyStrip s)

/-- Python `text.split(sep)` for a one-character separator `x`. -/
def splitOnCh (x : Nat) : List Nat → List (List Nat)
  | [] => [[]]
  | c :: rest =>
    if c = x then [] :: splitOnCh x rest
    else
      match splitOnCh x rest with
      | [] => [[c]]
      | w :: ws => (c :: w) :: ws

/-- Python `sep.join(parts)`. -/
def joinSep (sep : List Nat) : List (List Nat) → List Nat
  | [] => []
  | [w] => w
  | w :: ws => w ++ sep ++ joinSep sep ws

/-- `p[:1].upper() + p[1:].lower()` from `clean_name`. -/
def capWord (p : List Nat) : List Nat :=
  match p with
  | [] => []
  | c :: cs => upperN c :: cs.map lowerN

/-- The per-word transform of `clean_name`: split on hyphens, capitalise
each part, rejoin with hyphens. -/
def cleanNameWord (w : List Nat) : List Nat :=
  joinSep [45] ((splitOnCh 45 w).map capWord)

/-- `clean_name` from src/main.py. -/
def clean_name (name : List Nat) : List Nat :=
  let name := normalise_spaces name
  if name = [] then []
  else joinSep [32] ((splitOnCh 32 name).map cleanNameWord)

/-- `clean_email` from src/main.py: normalise spaces then lowercase. -/
def clean_email (email : List Nat) : List Nat := (normalise_spaces email).map lowerN

/-- Python `str.title()`: a letter after a non-letter (or at the start) is
uppercased, a letter after a letter is lowercased, other characters are kept.
The flag records whether the previous character was a letter. -/
def pyTitleAux : Bool → List Nat → List Nat
  | _, [] => []
  | b, c :: rest =>
    if isAlphaN c then (if b then lowerN c else upperN c) :: pyTitleAux true rest
    else c :: pyTitleAux false rest

def pyTitle (s : List Nat) : List Nat := pyTitleAux false s

/-- The character `str.title()` emits when the previous-is-letter flag is `b`. -/
def titleChar (b : Bool) (c : Nat) : Nat :=
  if isAlphaN c = true then (if b then lowerN c else upperN c) else c

/-- `clean_company` from src/main.py: normalise spaces then `str.title()`. -/
def clean_company (company : List Nat) : List Nat :=
  let company := normalise_spaces company
  if company = [] then [] else pyTitle company

/-- `re.sub(r"[^\d+]", "", phone)`: keep only digits and `+` (code 43). -/
def keepDigitsPlus (s : List Nat) : List Nat := s.filter (fun c => isDigitN c || decide (c = 43))

/-- `re.sub(r"\D", "", phone)`: keep only digits. -/
def keepDigits (s : List Nat) : List Nat := s.filter isDigitN

/-- `clean_phone` from src/main.py: normalise spaces, keep digits and `+`,
rewrite a literal `+44` prefix to `0`, then keep only digits. -/
def clean_phone (phone : List Nat) : List Nat :=
  let p := keepDigitsPlus (normalise_spaces phone)
  let p := if List.isPrefixOf [43, 52, 52] p then 48 :: p.drop 3 else p
  keepDigits p

/-- The regex class `[^@\s]`: not `@` (code 64) and not whitespace. -/
def emailChar (n : Nat) : Bool := !decide (n = 64) && !pyIsSpace n

/-- Full match of `[^@\s]+@[^@\s]+\.[^@\s]+` against all of `t`: there are
positions `i` of the `@` and `j` of the `.` splitting `t` into three nonempty
all-`emailChar` segments. -/
def emailFullMatch (t : List Nat) : Bool :=
  (List.range t.length).any fun i =>
    (List.range t.length).any fun j =>
      decide (1 ≤ i) && decide (i + 2 ≤ j) && decide (j + 2 ≤ t.length) &&
      (t[i]? == some 64) && (t[j]? == some 46) &&
      (t.take i).all emailChar &&
      ((t.drop (i + 1)).take (j - (i + 1))).all emailChar &&
      (t.drop (j + 1)).all emailChar

/-- `is_valid_email` from src/main.py:
`bool(re.match(r"^[^@\s]+@[^@\s]+\.[^@\s]+$", email.strip()))`.
The pattern is anchored at both ends, so it is a full match of the
stripped string. -/
def is_valid_email (email : List Nat) : Bool := emailFullMatch (pyStrip email)

/-- Modelled from the spec's words (§4.3), for comparison with the code:
the same pattern "anchored at the start (no end anchor required — a trailing
mismatch after a valid prefix still counts as valid)", i.e. some prefix of the
stripped string is a full match. -/
def spec_is_valid_email (email : List Nat) : Bool :=
  (List.range ((pyStrip email).length + 1)).any fun k =>
    emailFullMatch ((pyStrip email).take k)

/-- `is_valid_uk_phone` from src/main.py: all digits (nonempty, as Python's
`str.isdigit`), starts with `0` (code 48), length 10 or 11. -/
def is_valid_uk_phone (p : List Nat) : Bool :=
  (p.all isDigitN && !p.isEmpty) && List.isPrefixOf [48] p &&
    (decide (10 ≤ p.length) && decide (p.length ≤ 11))

/-- A cleaned record: the four fields produced by `clean_contact`. -/
structure Contact where
  name : List Nat
  email : List Nat
  phone : List Nat
  company : List Nat
deriving DecidableEq, Repr

/-- `row.get(key, "")` on a loaded CSV row. -/
def rowGet (row : List (String × String)) (k : String) : String := (row.lookup k).getD ""

/-- `clean_contact` from src/main.py. -/
def clean_contact (row : List (String × String)) : Contact :=
  { name := clean_name (codes (rowGet row "name"))
    email := clean_email (codes (rowGet row "email"))
    phone := clean_phone (codes (rowGet row "phone"))
    company := clean_company (codes (rowGet row "company")) }

/-- `completeness_score` from src/main.py: number of nonempty fields. -/
def completeness_score (c : Contact) : Nat :=
  (if c.name = [] then 0 else 1) + (if c.email = [] then 0 else 1) +
    (if c.phone = [] then 0 else 1) + (if c.company = [] then 0 else 1)

/-- The `stats` accumulator of `main`. -/
structure Stats where
  total : Nat
  missing_name : Nat
  missing_email : Nat
  invalid_email : Nat
  missing_phone : Nat
  invalid_phone : Nat
  missing_company : Nat
deriving DecidableEq, Repr

def initStats : Stats := ⟨0, 0, 0, 0, 0, 0, 0⟩

/-- One iteration of the stats loop of `main` (src/main.py lines 129-147),
applied to the cleaned record. -/
def statsStep (st : Stats) (c : Contact) : Stats :=
  let st := { st with total := st.total + 1 }
  let st := if c.name = [] then { st with missing_name := st.missing_name + 1 } else st
  let st :=
    if c.email = [] then { st with missing_email := st.missing_email + 1 }
    else if is_valid_email c.email then st
    else { st with invalid_email := st.invalid_email + 1 }
  let st :=
    if c.phone = [] then { st with missing_phone := st.missing_phone + 1 }
    else if is_valid_uk_phone c.phone then st
    else { st with invalid_phone := st.invalid_phone + 1 }
  if c.company = [] then { st with missing_company := st.missing_company + 1 } else st

/-- The whole stats pass over the cleaned records. -/
def statsRun (l : List Contact) : Stats := l.foldl statsStep initStats

/-- A key of the `deduped` dict: the nonempty cleaned email, or the synthetic
`"NOEMAIL_{id(c)}"` key for an empty-email record. `id(c)` is unique per
record object; it is modelled by the record's index in the input sequence. -/
inductive DKey where
  | email : List Nat → DKey
  | noemail : Nat → DKey
deriving DecidableEq, Repr

/-- Python dict assignment to an existing key: the value is replaced in
place, the key keeps its insertion position. -/
def replaceKey (acc : List (DKey × Contact)) (k : DKey) (c : Contact) : List (DKey × Contact) :=
  acc.map fun p => if p.1 = k then (k, c) else p

/-- `email in deduped` / `deduped[email]` lookup. -/
def findEmail (acc : List (DKey × Contact)) (e : List Nat) : Option (DKey × Contact) :=
  acc.find? fun p => decide (p.1 = DKey.email e)

/-- The dedupe loop of `main` (src/main.py lines 149-166): the dict is the
insertion-ordered association list `acc`, `idx` the next record's identity,
and the second result `duplicates_removed`. -/
def dedupeAux : List Contact → Nat → List (DKey × Contact) → Nat → List (DKey × Contact) × Nat
  | [], _, acc, dups => (acc, dups)
  | c :: rest, idx, acc, dups =>
    if c.email = [] then
      dedupeAux rest (idx + 1) (acc ++ [(DKey.noemail idx, c)]) dups
    else
      match findEmail acc c.email with
      | none => dedupeAux rest (idx + 1) (acc ++ [(DKey.email c.email, c)]) dups
      | some p =>
        if completeness_score c > completeness_score p.2 then
          dedupeAux rest (idx + 1) (replaceKey acc (DKey.email c.email) c) (dups + 1)
        else
          dedupeAux rest (idx + 1) acc (dups + 1)

def dedupe (l : List Contact) : List (DKey × Contact) × Nat := dedupeAux l 0 [] 0

/-- `list(deduped.values())`. -/
def deduped_contacts (l : List Contact) : List Contact := (dedupe l).1.map Prod.snd

def duplicates_removed (l : List Contact) : Nat := (dedupe l).2

/-- The emails of the `DKey.email` keys of the dict, in insertion order. -/
def emailKeys (acc : List (DKey × Contact)) : List (List Nat) :=
  acc.filterMap fun p =>
    match p.1 with
    | DKey.email e => some e
    | DKey.noemail _ => none

/-- The nonempty cleaned emails of the input sequence. -/
def nonemptyEmails (l : List Contact) : List (List Nat) :=
  (l.map Contact.email).filter fun e => !e.isEmpty

/-- Modelled from the spec: `csv.DictReader` (the csv module is Python's
standard library, not part of this repository). Per spec §4.1, the first
line is the header of column names and each later line becomes a row keyed
by those names; quoting rules are not modelled. -/
def dictReader (content : String) : List (List (String × String)) :=
  match content.splitOn "\n" with
  | [] => []
  | header :: rows => rows.map fun r => (header.splitOn ",").zip (r.splitOn ",")

/-- `load_contacts` from src/main.py, over a filesystem modelled as an
association list from path to file content. -/
def load_contacts (fs : List (String × String)) (path : String) :
    Except String (List (List (String × String))) :=
  match fs.lookup path with
  | none => Except.error ("Contacts file not found: " ++ path)
  | some content => Except.ok (dictReader content)

/-- The `str.title()` rule at one position: what the character at index `i`
of `u` becomes, given whether the previous character is a letter. -/
def prevAlpha (u : List Nat) : Nat → Bool
  | 0 => false
  | j + 1 =>
    match u[j]? with
    | some c => isAlphaN c
    | none => false

def titleRule (u : List Nat) (i : Nat) (c : Nat) : Nat :=
  if isAlphaN c then (if prevAlpha u i then lowerN c else upperN c) else c

/-- Whitespace-free word. -/
def wsFree (w : List Nat) : Bool := w.all fun c => !pyIsSpace c

/-- Head exists and is not whitespace. -/
def headOK : List Nat → Bool
  | [] => false
  | c :: _ => !pyIsSpace c

/-- Every whitespace character is a plain space immediately followed by a
non-whitespace character (so: no double spaces, no trailing whitespace, no
tabs or newlines). -/
def wsOK : List Nat → Bool
  | [] => true
  | c :: rest => (if pyIsSpace c then decide (c = 32) && headOK rest else true) && wsOK rest

/-- No trailing whitespace. -/
def noTrail : List Nat → Bool
  | [] => true
  | [c] => !pyIsSpace c
  | _ :: rest => noTrail rest

/-- Fixed points of `normalise_spaces`: empty, or starts with a
non-whitespace character and is `wsOK`. -/
def goodWS (t : List Nat) : Bool := (t.isEmpty || headOK t) && wsOK t

/-- The full-match shape of the email regex, as an explicit decomposition:
local part, `@` (64), middle part, `.` (46), final part. -/
def EmailShape (t : List Nat) : Prop :=
  ∃ p u v : List Nat,
    t = p ++ 64 :: (u ++ 46 :: v) ∧ p ≠ [] ∧ u ≠ [] ∧ v ≠ [] ∧
      (∀ c ∈ p, emailChar c = true) ∧ (∀ c ∈ u, emailChar c = true) ∧
      (∀ c ∈ v, emailChar c = true)

/-- Example contacts for the closed witness statements. -/
def exContact1 : Contact := ⟨codes "ann", codes "a@b.co", [], []⟩

def exContact2 : Contact := ⟨codes "ann", codes "a@b.co", codes "07123456789", []⟩

def exContact3 : Contact := ⟨codes "bob", codes "a@b.co", [], []⟩

def exContactBad : Contact := ⟨codes "x", codes "bademail", codes "123", codes "co"⟩

def exFS : List (String × String) := [("data/contacts_raw.csv", "name,email\nann,a@b.co")]

/-! ### Character-class lemmas -/

theorem lowerN_lowerN (n : Nat) : lowerN (lowerN n) = lowerN n := by
  unfold lowerN isUpperCode
  split <;> (try split) <;> simp_all <;> omega

theorem upperN_upperN (n : Nat) : upperN (upperN n) = upperN n := by
  unfold upperN isLowerCode
  split <;> (try split) <;> simp_all <;> omega

theorem pyIsSpace_lowerN (n : Nat) : pyIsSpace (lowerN n) = pyIsSpace n := by
  unfold lowerN isUpperCode pyIsSpace
  split
  · rename_i h
    simp only [decide_eq_true_eq] at h
    rw [decide_eq_decide]
    omega
  · rfl

theorem pyIsSpace_upperN (n : Nat) : pyIsSpace (upperN n) = pyIsSpace n := by
  unfold upperN isLowerCode pyIsSpace
  split
  · rename_i h
    simp only [decide_eq_true_eq] at h
    rw [decide_eq_decide]
    omega
  · rfl

theorem isAlphaN_lowerN (n : Nat) : isAlphaN (lowerN n) = isAlphaN n := by
  unfold lowerN isAlphaN isUpperCode isLowerCode
  split
  · rename_i h
    simp only [decide_eq_true_eq] at h
    rw [Bool.eq_iff_iff]
    simp only [Bool.or_eq_true, decide_eq_true_eq]
    omega
  · rfl

theorem isAlphaN_upperN (n : Nat) : isAlphaN (upperN n) = isAlphaN n := by
  unfold upperN isAlphaN isUpperCode isLowerCode
  split
  · rename_i h
    simp only [decide_eq_true_eq] at h
    rw [Bool.eq_iff_iff]
    simp only [Bool.or_eq_true, decide_eq_true_eq]
    omega
  · rfl

theorem pyIsSpace_of_isAlphaN (n : Nat) (h : isAlphaN n = true) : pyIsSpace n = false := by
  unfold isAlphaN isUpperCode isLowerCode at h
  unfold pyIsSpace
  simp only [Bool.or_eq_true, decide_eq_true_eq] at h
  simp only [decide_eq_false_iff_not]
  omega

theorem lowerN_ne45 (n : Nat) (h : n ≠ 45) : lowerN n ≠ 45 := by
  unfold lowerN isUpperCode
  split <;> simp_all <;> omega

theorem upperN_ne45 (n : Nat) (h : n ≠ 45) : upperN n ≠ 45 := by
  unfold upperN isLowerCode
  split <;> simp_all <;> omega

/-! ### Split / join lemmas -/

theorem splitOnCh_ne_nil (x : Nat) (l : List Nat) : splitOnCh x l ≠ [] := by
  cases l with
  | nil => simp [splitOnCh]
  | cons c rest =>
    unfold splitOnCh
    split
    · simp
    · cases h : splitOnCh x rest <;> simp

theorem joinSep_splitOnCh (x : Nat) (l : List Nat) : joinSep [x] (splitOnCh x l) = l := by
  induction l with
  | nil => rfl
  | cons c rest ih =>
    unfold splitOnCh
    split
    · rename_i hcx
      cases h2 : splitOnCh x rest with
      | nil => exact absurd h2 (splitOnCh_ne_nil x rest)
      | cons w ws =>
        rw [h2] at ih
        simp only [joinSep]
        simp only [List.nil_append, List.singleton_append]
        rw [ih, hcx]
    · rename_i hcx
      cases h2 : splitOnCh x rest with
      | nil => exact absurd h2 (splitOnCh_ne_nil x rest)
      | cons w ws =>
        rw [h2] at ih
        cases ws with
        | nil =>
          simp only [joinSep] at ih ⊢
          rw [ih]
        | cons w2 ws2 =>
          simp only [joinSep] at ih ⊢
          simp only [List.cons_append]
          rw [ih]

theorem splitOnCh_no_sep (x : Nat) (l : List Nat) : ∀ w ∈ splitOnCh x l, x ∉ w := by
  induction l with
  | nil =>
    intro w hw
    simp only [splitOnCh, List.mem_singleton] at hw
    subst hw
    simp
  | cons c rest ih =>
    intro w hw
    unfold splitOnCh at hw
    split at hw
    · rcases List.mem_cons.mp hw with h | h
      · subst h; simp
      · exact ih w h
    · rename_i hcx
      cases h2 : splitOnCh x rest with
      | nil => exact absurd h2 (splitOnCh_ne_nil x rest)
      | cons w1 ws =>
        rw [h2] at hw
        rcases List.mem_cons.mp hw with h | h
        · subst h
          intro hmem
          rcases List.mem_cons.mp hmem with h | h
          · exact hcx h.symm
          · exact ih w1 (h2 ▸ List.mem_cons_self w1 ws) h
        · exact ih w (h2 ▸ List.mem_cons_of_mem _ h)

theorem splitOnCh_subset (x : Nat) (l : List Nat) :
    ∀ w ∈ splitOnCh x l, ∀ c ∈ w, c ∈ l := by
  induction l with
  | nil =>
    intro w hw
    simp only [splitOnCh, List.mem_singleton] at hw
    subst hw
    simp
  | cons a rest ih =>
    intro w hw c hc
    unfold splitOnCh at hw
    split at hw
    · rcases List.mem_cons.mp hw with h | h
      · subst h; simp at hc
      · exact List.mem_cons_of_mem _ (ih w h c hc)
    · cases h2 : splitOnCh x rest with
      | nil => exact absurd h2 (splitOnCh_ne_nil x rest)
      | cons w1 ws =>
        rw [h2] at hw
        rcases List.mem_cons.mp hw with h | h
        · subst h
          rcases List.mem_cons.mp hc with h | h
          · rw [h]; exact List.mem_cons_self _ _
          · exact List.mem_cons_of_mem _ (ih w1 (h2 ▸ List.mem_cons_self w1 ws) c h)
        · exact List.mem_cons_of_mem _ (ih w (h2 ▸ List.mem_cons_of_mem _ h) c hc)

theorem splitOnCh_single (x : Nat) (w : List Nat) (h : x ∉ w) : splitOnCh x w = [w] := by
  induction w with
  | nil => rfl
  | cons c r ih =>
    have hcx : ¬c = x := fun hc => h (hc ▸ List.mem_cons_self c r)
    have hr : x ∉ r := fun hr => h (List.mem_cons_of_mem _ hr)
    unfold splitOnCh
    rw [if_neg hcx, ih hr]

theorem splitOnCh_append (x : Nat) (w r : List Nat) (h : x ∉ w) :
    splitOnCh x (w ++ x :: r) = w :: splitOnCh x r := by
  induction w with
  | nil => simp [splitOnCh]
  | cons c w' ih =>
    have hcx : ¬c = x := fun hc => h (hc ▸ List.mem_cons_self c w')
    have hw' : x ∉ w' := fun hw => h (List.mem_cons_of_mem _ hw)
    simp only [List.cons_append]
    conv_lhs => rw [splitOnCh]
    rw [if_neg hcx, ih hw']

theorem splitOnCh_joinSep (x : Nat) (ws : List (List Nat)) (hne : ws ≠ [])
    (h : ∀ w ∈ ws, x ∉ w) : splitOnCh x (joinSep [x] ws) = ws := by
  induction ws with
  | nil => exact absurd rfl hne
  | cons w ws' ih =>
    cases ws' with
    | nil =>
      simp only [joinSep]
      exact splitOnCh_single x w (h w (List.mem_cons_self _ _))
    | cons w2 ws2 =>
      simp only [joinSep]
      rw [List.append_assoc, List.singleton_append]
      rw [splitOnCh_append x w _ (h w (List.mem_cons_self _ _))]
      rw [ih (by simp) (fun u hu => h u (List.mem_cons_of_mem _ hu))]

theorem joinSep_cons (x : Nat) (w : List Nat) (ws : List (List Nat)) (h : ws ≠ []) :
    joinSep [x] (w :: ws) = w ++ x :: joinSep [x] ws := by
  cases ws with
  | nil => exact absurd rfl h
  | cons w2 ws2 =>
    simp only [joinSep]
    rw [List.append_assoc, List.singleton_append]

theorem mem_joinSep (x c : Nat) (ws : List (List Nat)) (h : c ∈ joinSep [x] ws) :
    c = x ∨ ∃ w ∈ ws, c ∈ w := by
  induction ws with
  | nil => simp [joinSep] at h
  | cons w ws' ih =>
    cases ws' with
    | nil =>
      simp only [joinSep] at h
      right
      exact ⟨w, List.mem_cons_self _ _, h⟩
    | cons w2 ws2 =>
      rw [joinSep_cons x w _ (by simp)] at h
      rcases List.mem_append.mp h with h | h
      · right; exact ⟨w, List.mem_cons_self _ _, h⟩
      · rcases List.mem_cons.mp h with h | h
        · left; exact h
        · rcases ih h with h | ⟨u, hu, hc⟩
          · left; exact h
          · right; exact ⟨u, List.mem_cons_of_mem _ hu, hc⟩

theorem joinSep_length_map (x : Nat) (f : List Nat → List Nat) (ws : List (List Nat))
    (h : ∀ w ∈ ws, (f w).length = w.length) :
    (joinSep [x] (ws.map f)).length = (joinSep [x] ws).length := by
  induction ws with
  | nil => rfl
  | cons w ws' ih =>
    cases ws' with
    | nil =>
      simp only [List.map, joinSep]
      exact h w (List.mem_cons_self _ _)
    | cons w2 ws2 =>
      rw [List.map_cons, joinSep_cons x (f w) _ (by simp), joinSep_cons x w _ (by simp)]
      simp only [List.length_append, List.length_cons]
      rw [h w (List.mem_cons_self _ _), ih (fun u hu => h u (List.mem_cons_of_mem _ hu))]

theorem joinSep_ne_nil (x : Nat) (w : List Nat) (ws : List (List Nat)) (hw : w ≠ []) :
    joinSep [x] (w :: ws) ≠ [] := by
  cases ws with
  | nil => simpa [joinSep] using hw
  | cons w2 ws2 =>
    rw [joinSep_cons x w (w2 :: ws2) (by simp)]
    simp [hw]

/-! ### capWord and cleanNameWord lemmas -/

theorem capWord_length (p : List Nat) : (capWord p).length = p.length := by
  cases p <;> simp [capWord]

theorem capWord_capWord (p : List Nat) : capWord (capWord p) = capWord p := by
  cases p with
  | nil => rfl
  | cons c cs =>
    simp only [capWord, upperN_upperN, List.map_map]
    congr 1
    apply List.map_congr_left
    intro a _
    exact lowerN_lowerN a

theorem capWord_no45 (p : List Nat) (h : 45 ∉ p) : 45 ∉ capWord p := by
  cases p with
  | nil => simp [capWord]
  | cons c cs =>
    simp only [capWord]
    intro hmem
    rcases List.mem_cons.mp hmem with h1 | h1
    · exact upperN_ne45 c (fun hc => h (hc ▸ List.mem_cons_self c cs)) h1.symm
    · rcases List.mem_map.mp h1 with ⟨a, ha, hla⟩
      exact lowerN_ne45 a (fun hc => h (hc ▸ List.mem_cons_of_mem _ ha)) hla

theorem capWord_wsFree (p : List Nat) (h : wsFree p = true) : wsFree (capWord p) = true := by
  cases p with
  | nil => rfl
  | cons c cs =>
    simp only [wsFree, List.all_cons, Bool.and_eq_true, Bool.not_eq_true'] at h
    simp only [capWord, wsFree, List.all_cons, Bool.and_eq_true, Bool.not_eq_true']
    constructor
    · rw [pyIsSpace_upperN]; exact h.1
    · rw [List.all_eq_true]
      intro a ha
      rcases List.mem_map.mp ha with ⟨b, hb, rfl⟩
      simp only [Bool.not_eq_true', pyIsSpace_lowerN]
      have hb2 := List.all_eq_true.mp h.2 b hb
      simpa using hb2

theorem cleanNameWord_length (w : List Nat) : (cleanNameWord w).length = w.length := by
  unfold cleanNameWord
  rw [joinSep_length_map 45 capWord _ (fun p _ => capWord_length p), joinSep_splitOnCh]

theorem cleanNameWord_idem (w : List Nat) : cleanNameWord (cleanNameWord w) = cleanNameWord w := by
  unfold cleanNameWord
  rw [splitOnCh_joinSep 45 _ (by simpa using splitOnCh_ne_nil 45 w)
    (fun p hp => by
      rcases List.mem_map.mp hp with ⟨q, hq, rfl⟩
      exact capWord_no45 q (splitOnCh_no_sep 45 w q hq))]
  rw [List.map_map]
  congr 1
  apply List.map_congr_left
  intro q _
  exact capWord_capWord q

/-! ### Whitespace-shape lemmas: fixed points of `normalise_spaces` -/

theorem wsOK_cons (c : Nat) (rest : List Nat) :
    wsOK (c :: rest) =
      ((if pyIsSpace c = true then decide (c = 32) && headOK rest else true) && wsOK rest) := rfl

theorem collapseWS_cons (b : Bool) (c : Nat) (rest : List Nat) :
    collapseWS b (c :: rest) =
      (if pyIsSpace c = true then
        (if b then collapseWS true rest else 32 :: collapseWS true rest)
      else c :: collapseWS false rest) := rfl

theorem dropTrailWS_cons (c : Nat) (rest : List Nat) :
    dropTrailWS (c :: rest) =
      (match dropTrailWS rest with
        | [] => if pyIsSpace c = true then [] else [c]
        | r => c :: r) := rfl

theorem noTrail_single (c : Nat) : noTrail [c] = !pyIsSpace c := rfl

theorem noTrail_cons (c : Nat) (rest : List Nat) (h : rest ≠ []) :
    noTrail (c :: rest) = noTrail rest := by
  cases rest with
  | nil => exact absurd rfl h
  | cons d r => rfl

theorem wsOK_cons_elim (c : Nat) (rest : List Nat) (h : wsOK (c :: rest) = true) :
    wsOK rest = true := by
  rw [wsOK_cons] at h
  simp only [Bool.and_eq_true] at h
  exact h.2

theorem wsFree_cons_elim (c : Nat) (rest : List Nat) (h : wsFree (c :: rest) = true) :
    pyIsSpace c = false ∧ wsFree rest = true := by
  simp only [wsFree, List.all_cons, Bool.and_eq_true, Bool.not_eq_true'] at h
  exact ⟨h.1, by simpa [wsFree] using h.2⟩

theorem wsFree_wsOK (w : List Nat) (h : wsFree w = true) : wsOK w = true := by
  induction w with
  | nil => rfl
  | cons c rest ih =>
    rcases wsFree_cons_elim c rest h with ⟨h1, h2⟩
    rw [wsOK_cons, if_neg (by simp [h1]), Bool.true_and]
    exact ih h2

theorem wsOK_append_wsFree (w r : List Nat) (h : wsFree w = true) :
    wsOK (w ++ r) = wsOK r := by
  induction w with
  | nil => rfl
  | cons c w' ih =>
    rcases wsFree_cons_elim c w' h with ⟨h1, h2⟩
    rw [List.cons_append, wsOK_cons, if_neg (by simp [h1]), Bool.true_and]
    exact ih h2

theorem headOK_append (w r : List Nat) (hw : w ≠ []) : headOK (w ++ r) = headOK w := by
  cases w with
  | nil => exact absurd rfl hw
  | cons c w' => rfl

theorem collapseWS_only32 (b : Bool) (l : List Nat) (c : Nat) (hc : c ∈ collapseWS b l)
    (hws : pyIsSpace c = true) : c = 32 := by
  induction l generalizing b with
  | nil => simp [collapseWS] at hc
  | cons d rest ih =>
    rw [collapseWS_cons] at hc
    by_cases hd : pyIsSpace d = true
    · rw [if_pos hd] at hc
      cases b with
      | true =>
        rw [if_pos rfl] at hc
        exact ih true hc
      | false =>
        rw [if_neg (by simp)] at hc
        rcases List.mem_cons.mp hc with h | h
        · exact h
        · exact ih true h
    · rw [if_neg hd] at hc
      rcases List.mem_cons.mp hc with h | h
      · subst h
        exact absurd hws (by simpa using hd)
      · exact ih false h

theorem noTrail_dropTrailWS (l : List Nat) : noTrail (dropTrailWS l) = true := by
  induction l with
  | nil => rfl
  | cons c rest ih =>
    rw [dropTrailWS_cons]
    cases h : dropTrailWS rest with
    | nil =>
      show noTrail (if pyIsSpace c = true then [] else [c]) = true
      by_cases hc : pyIsSpace c = true
      · rw [if_pos hc]; rfl
      · rw [if_neg hc, noTrail_single]
        simp only [Bool.not_eq_true] at hc
        simp [hc]
    | cons d r =>
      show noTrail (c :: d :: r) = true
      rw [h] at ih
      rw [noTrail_cons c (d :: r) (by simp)]
      exact ih

theorem headOK_collapse_true (l : List Nat) (hnt : noTrail l = true) (hne : l ≠ []) :
    headOK (collapseWS true l) = true := by
  induction l with
  | nil => exact absurd rfl hne
  | cons c rest ih =>
    by_cases hc : pyIsSpace c = true
    · cases hr : rest with
      | nil =>
        rw [hr, noTrail_single, hc] at hnt
        simp at hnt
      | cons d r =>
        subst hr
        have hnt' : noTrail (d :: r) = true := by
          rw [← noTrail_cons c _ (by simp)]
          exact hnt
        rw [collapseWS_cons, if_pos hc, if_pos rfl]
        exact ih hnt' (by simp)
    · rw [collapseWS_cons, if_neg hc]
      simp only [Bool.not_eq_true] at hc
      simp [headOK, hc]

theorem headOK_collapse (b : Bool) (l : List Nat) (h : headOK l = true) :
    headOK (collapseWS b l) = true := by
  cases l with
  | nil => simp [headOK] at h
  | cons c rest =>
    have hc : pyIsSpace c = false := by simpa [headOK] using h
    rw [collapseWS_cons, if_neg (by simp [hc])]
    simp [headOK, hc]

theorem wsOK_collapse (b : Bool) (l : List Nat) (hnt : noTrail l = true) :
    wsOK (collapseWS b l) = true := by
  induction l generalizing b with
  | nil => rfl
  | cons c rest ih =>
    by_cases hc : pyIsSpace c = true
    · cases hr : rest with
      | nil =>
        rw [hr, noTrail_single, hc] at hnt
        simp at hnt
      | cons d r =>
        subst hr
        have hne : (d :: r) ≠ ([] : List Nat) := by simp
        have hnt' : noTrail (d :: r) = true := by
          rw [← noTrail_cons c _ hne]
          exact hnt
        rw [collapseWS_cons, if_pos hc]
        cases b with
        | true =>
          rw [if_pos rfl]
          exact ih true hnt'
        | false =>
          rw [if_neg (by simp)]
          rw [wsOK_cons, if_pos (by decide)]
          rw [headOK_collapse_true _ hnt' hne, ih true hnt']
          simp
    · rw [collapseWS_cons, if_neg hc]
      rw [wsOK_cons, if_neg hc, Bool.true_and]
      cases hr : rest with
      | nil => rfl
      | cons d r =>
        subst hr
        have hnt' : noTrail (d :: r) = true := by
          rw [← noTrail_cons c _ (by simp)]
          exact hnt
        exact ih false hnt'

theorem headOK_dropWhileWS (s : List Nat) :
    s.dropWhile pyIsSpace = [] ∨ headOK (s.dropWhile pyIsSpace) = true := by
  induction s with
  | nil => left; rfl
  | cons c rest ih =>
    by_cases hc : pyIsSpace c = true
    · rw [List.dropWhile_cons, if_pos hc]
      exact ih
    · simp only [Bool.not_eq_true] at hc
      rw [List.dropWhile_cons, if_neg (by simp [hc])]
      right
      simp [headOK, hc]

theorem headOK_dropTrailWS (l : List Nat) (h : headOK l = true) :
    dropTrailWS l = [] ∨ headOK (dropTrailWS l) = true := by
  cases l with
  | nil => left; rfl
  | cons c rest =>
    have hc : pyIsSpace c = false := by simpa [headOK] using h
    rw [dropTrailWS_cons]
    cases h2 : dropTrailWS rest with
    | nil =>
      right
      show headOK (if pyIsSpace c = true then [] else [c]) = true
      rw [if_neg (by simp [hc])]
      simp [headOK, hc]
    | cons d r =>
      right
      show headOK (c :: d :: r) = true
      simp [headOK, hc]

theorem goodWS_normalise (s : List Nat) : goodWS (normalise_spaces s) = true := by
  unfold goodWS normalise_spaces pyStrip
  rw [Bool.and_eq_true]
  constructor
  · rcases headOK_dropWhileWS s with h | h
    · rw [h]
      simp [collapseWS, dropTrailWS]
    · rcases headOK_dropTrailWS _ h with h2 | h2
      · rw [h2]
        simp [collapseWS]
      · rw [headOK_collapse false _ h2]
        simp
  · exact wsOK_collapse false _ (noTrail_dropTrailWS _)

theorem dropWhileWS_fix (t : List Nat) (h : t = [] ∨ headOK t = true) :
    t.dropWhile pyIsSpace = t := by
  rcases h with h | h
  · rw [h]; rfl
  · cases t with
    | nil => rfl
    | cons c rest =>
      have hc : pyIsSpace c = false := by simpa [headOK] using h
      rw [List.dropWhile_cons, if_neg (by simp [hc])]

theorem dropTrailWS_fix (t : List Nat) (h : wsOK t = true) : dropTrailWS t = t := by
  induction t with
  | nil => rfl
  | cons c rest ih =>
    have hrest : dropTrailWS rest = rest := ih (wsOK_cons_elim c rest h)
    rw [dropTrailWS_cons, hrest]
    cases hr : rest with
    | nil =>
      show (if pyIsSpace c = true then [] else [c]) = [c]
      have hc : pyIsSpace c = false := by
        rw [hr] at h
        rw [wsOK_cons] at h
        by_contra hcc
        simp only [Bool.not_eq_false] at hcc
        rw [if_pos hcc] at h
        simp [headOK] at h
      rw [if_neg (by simp [hc])]
    | cons d r => rfl

theorem collapse_fix : ∀ t : List Nat, wsOK t = true → collapseWS false t = t
  | [], _ => rfl
  | [c], h => by
    have hc : pyIsSpace c = false := by
      by_contra hcc
      simp only [Bool.not_eq_false] at hcc
      rw [wsOK_cons, if_pos hcc] at h
      simp [headOK] at h
    rw [collapseWS_cons, if_neg (by simp [hc])]
    rfl
  | c :: d :: r, h => by
    by_cases hc : pyIsSpace c = true
    · have h1 := h
      rw [wsOK_cons, if_pos hc] at h1
      simp only [Bool.and_eq_true, decide_eq_true_eq] at h1
      obtain ⟨⟨h32, hdrOK⟩, _⟩ := h1
      have hd : pyIsSpace d = false := by simpa [headOK] using hdrOK
      have hr : wsOK r = true := wsOK_cons_elim d r (wsOK_cons_elim c (d :: r) h)
      rw [collapseWS_cons, if_pos hc, if_neg (by simp)]
      rw [collapseWS_cons, if_neg (by simp [hd])]
      rw [collapse_fix r hr, h32]
    · simp only [Bool.not_eq_true] at hc
      rw [collapseWS_cons, if_neg (by simp [hc])]
      rw [collapse_fix (d :: r) (wsOK_cons_elim c (d :: r) h)]

theorem goodWS_head (t : List Nat) (h : goodWS t = true) : t = [] ∨ headOK t = true := by
  unfold goodWS at h
  rw [Bool.and_eq_true, Bool.or_eq_true] at h
  rcases h.1 with h3 | h3
  · left; exact List.isEmpty_iff.mp h3
  · right; exact h3

theorem goodWS_wsOK (t : List Nat) (h : goodWS t = true) : wsOK t = true := by
  unfold goodWS at h
  rw [Bool.and_eq_true] at h
  exact h.2

theorem normalise_fix (t : List Nat) (h : goodWS t = true) : normalise_spaces t = t := by
  unfold normalise_spaces pyStrip
  rw [dropWhileWS_fix t (goodWS_head t h), dropTrailWS_fix t (goodWS_wsOK t h)]
  exact collapse_fix t (goodWS_wsOK t h)

theorem normalise_idem (s : List Nat) :
    normalise_spaces (normalise_spaces s) = normalise_spaces s :=
  normalise_fix _ (goodWS_normalise s)

/-! ### Idempotence of the cleaners -/

theorem lowerN_ws_fix (c : Nat) (h : pyIsSpace c = true) : lowerN c = c := by
  simp only [pyIsSpace, decide_eq_true_eq] at h
  unfold lowerN isUpperCode
  rw [if_neg (by simp only [decide_eq_true_eq]; omega)]

theorem headOK_map_lowerN (t : List Nat) : headOK (t.map lowerN) = headOK t := by
  cases t with
  | nil => rfl
  | cons c r =>
    show (!pyIsSpace (lowerN c)) = !pyIsSpace c
    rw [pyIsSpace_lowerN]

theorem wsOK_map_lowerN (t : List Nat) : wsOK (t.map lowerN) = wsOK t := by
  induction t with
  | nil => rfl
  | cons c rest ih =>
    rw [List.map_cons, wsOK_cons, wsOK_cons, pyIsSpace_lowerN, headOK_map_lowerN, ih]
    by_cases hc : pyIsSpace c = true
    · rw [if_pos hc, if_pos hc, lowerN_ws_fix c hc]
    · rw [if_neg hc, if_neg hc]

theorem goodWS_map_lowerN (t : List Nat) : goodWS (t.map lowerN) = goodWS t := by
  unfold goodWS
  rw [wsOK_map_lowerN, headOK_map_lowerN]
  cases t <;> rfl

theorem clean_email_idem (s : List Nat) : clean_email (clean_email s) = clean_email s := by
  unfold clean_email
  rw [normalise_fix ((normalise_spaces s).map lowerN)
    (by rw [goodWS_map_lowerN]; exact goodWS_normalise s)]
  rw [List.map_map]
  apply List.map_congr_left
  intro a _
  exact lowerN_lowerN a

theorem pyTitleAux_cons (b : Bool) (c : Nat) (rest : List Nat) :
    pyTitleAux b (c :: rest) =
      (if isAlphaN c = true then (if b then lowerN c else upperN c) :: pyTitleAux true rest
       else c :: pyTitleAux false rest) := rfl

theorem pyTitleAux_cons2 (b : Bool) (c : Nat) (rest : List Nat) :
    pyTitleAux b (c :: rest) = titleChar b c :: pyTitleAux (isAlphaN c) rest := by
  unfold titleChar
  by_cases h : isAlphaN c = true
  · rw [pyTitleAux_cons, if_pos h, if_pos h, h]
  · rw [pyTitleAux_cons, if_neg h, if_neg h]
    simp only [Bool.not_eq_true] at h
    rw [h]

theorem isAlphaN_titleChar (b : Bool) (c : Nat) : isAlphaN (titleChar b c) = isAlphaN c := by
  unfold titleChar
  by_cases h : isAlphaN c = true
  · rw [if_pos h]
    cases b
    · rw [if_neg (by simp), isAlphaN_upperN]
    · rw [if_pos rfl, isAlphaN_lowerN]
  · rw [if_neg h]

theorem pyIsSpace_titleChar (b : Bool) (c : Nat) : pyIsSpace (titleChar b c) = pyIsSpace c := by
  unfold titleChar
  by_cases h : isAlphaN c = true
  · rw [if_pos h]
    cases b
    · rw [if_neg (by simp), pyIsSpace_upperN]
    · rw [if_pos rfl, pyIsSpace_lowerN]
  · rw [if_neg h]

theorem titleChar_ws_fix (b : Bool) (c : Nat) (h : pyIsSpace c = true) : titleChar b c = c := by
  unfold titleChar
  rw [if_neg]
  intro ha
  rw [pyIsSpace_of_isAlphaN c ha] at h
  exact Bool.false_ne_true h

theorem titleChar_idem (b : Bool) (c : Nat) :
    titleChar b (titleChar b c) = titleChar b c := by
  by_cases h : isAlphaN c = true
  · cases b with
    | false =>
      have e1 : titleChar false c = upperN c := by
        unfold titleChar
        rw [if_pos h, if_neg (by simp)]
      have e2 : titleChar false (upperN c) = upperN (upperN c) := by
        unfold titleChar
        rw [if_pos (by rw [isAlphaN_upperN]; exact h), if_neg (by simp)]
      rw [e1, e2, upperN_upperN]
    | true =>
      have e1 : titleChar true c = lowerN c := by
        unfold titleChar
        rw [if_pos h, if_pos rfl]
      have e2 : titleChar true (lowerN c) = lowerN (lowerN c) := by
        unfold titleChar
        rw [if_pos (by rw [isAlphaN_lowerN]; exact h), if_pos rfl]
      rw [e1, e2, lowerN_lowerN]
  · have e1 : titleChar b c = c := by
      unfold titleChar
      rw [if_neg h]
    rw [e1, e1]

theorem pyTitleAux_idem (u : List Nat) : ∀ b, pyTitleAux b (pyTitleAux b u) = pyTitleAux b u := by
  induction u with
  | nil => intro b; rfl
  | cons c rest ih =>
    intro b
    rw [pyTitleAux_cons2 b c rest]
    rw [pyTitleAux_cons2 b (titleChar b c) (pyTitleAux (isAlphaN c) rest)]
    rw [titleChar_idem, isAlphaN_titleChar, ih (isAlphaN c)]

theorem headOK_pyTitleAux (b : Bool) (t : List Nat) : headOK (pyTitleAux b t) = headOK t := by
  cases t with
  | nil => rfl
  | cons c r =>
    rw [pyTitleAux_cons2]
    show (!pyIsSpace (titleChar b c)) = !pyIsSpace c
    rw [pyIsSpace_titleChar]

theorem wsOK_pyTitleAux (b : Bool) (t : List Nat) : wsOK (pyTitleAux b t) = wsOK t := by
  induction t generalizing b with
  | nil => rfl
  | cons c rest ih =>
    rw [pyTitleAux_cons2, wsOK_cons, wsOK_cons, pyIsSpace_titleChar, headOK_pyTitleAux,
      ih (isAlphaN c)]
    by_cases hc : pyIsSpace c = true
    · rw [if_pos hc, if_pos hc, titleChar_ws_fix b c hc]
    · rw [if_neg hc, if_neg hc]

theorem goodWS_pyTitle (t : List Nat) : goodWS (pyTitle t) = goodWS t := by
  unfold goodWS pyTitle
  rw [wsOK_pyTitleAux, headOK_pyTitleAux]
  cases t with
  | nil => rfl
  | cons c rest => rw [pyTitleAux_cons2]; rfl

theorem clean_company_eq (t : List Nat) :
    clean_company t = (if normalise_spaces t = [] then [] else pyTitle (normalise_spaces t)) := rfl

theorem clean_company_idem (s : List Nat) :
    clean_company (clean_company s) = clean_company s := by
  rw [clean_company_eq s]
  by_cases h : normalise_spaces s = []
  · rw [if_pos h, clean_company_eq, if_pos (show normalise_spaces [] = ([] : List Nat) from rfl)]
  · rw [if_neg h, clean_company_eq]
    have hgood : goodWS (pyTitle (normalise_spaces s)) = true := by
      rw [goodWS_pyTitle]
      exact goodWS_normalise s
    rw [normalise_fix _ hgood]
    have hne : pyTitle (normalise_spaces s) ≠ [] := by
      cases hu : normalise_spaces s with
      | nil => exact absurd hu h
      | cons c r =>
        unfold pyTitle
        rw [pyTitleAux_cons2]
        simp
    rw [if_neg hne]
    exact pyTitleAux_idem _ false

theorem wsFree_intro (w : List Nat) (h : ∀ c ∈ w, pyIsSpace c = false) : wsFree w = true := by
  unfold wsFree
  rw [List.all_eq_true]
  intro c hc
  simp [h c hc]

theorem wsFree_elim (w : List Nat) (h : wsFree w = true) : ∀ c ∈ w, pyIsSpace c = false := by
  unfold wsFree at h
  rw [List.all_eq_true] at h
  intro c hc
  simpa using h c hc

theorem not_mem32_of_wsFree (v : List Nat) (h : wsFree v = true) : 32 ∉ v := by
  intro hm
  have := wsFree_elim v h 32 hm
  simp [pyIsSpace] at this

theorem goodWS_of_wsFree (p : List Nat) (h : wsFree p = true) : goodWS p = true := by
  unfold goodWS
  rw [wsFree_wsOK p h, Bool.and_true]
  cases p with
  | nil => rfl
  | cons c r =>
    rcases wsFree_cons_elim c r h with ⟨h1, _⟩
    simp [headOK, h1]

/-! ### clean_phone idempotence -/

theorem digit_not_ws (c : Nat) (h : isDigitN c = true) : pyIsSpace c = false := by
  simp only [isDigitN, decide_eq_true_eq] at h
  simp only [pyIsSpace, decide_eq_false_iff_not]
  omega

theorem wsFree_of_all_digits (p : List Nat) (h : p.all isDigitN = true) : wsFree p = true :=
  wsFree_intro p fun c hc => digit_not_ws c (List.all_eq_true.mp h c hc)

theorem keepDigits_all (s : List Nat) : (keepDigits s).all isDigitN = true := by
  rw [List.all_eq_true]
  intro a ha
  exact (List.mem_filter.mp ha).2

theorem keepDigitsPlus_fix (p : List Nat) (h : p.all isDigitN = true) : keepDigitsPlus p = p := by
  unfold keepDigitsPlus
  apply List.filter_eq_self.mpr
  intro a ha
  rw [Bool.or_eq_true]
  left
  exact List.all_eq_true.mp h a ha

theorem keepDigits_fix (p : List Nat) (h : p.all isDigitN = true) : keepDigits p = p := by
  unfold keepDigits
  exact List.filter_eq_self.mpr fun a ha => List.all_eq_true.mp h a ha

theorem plus44_not_of_digits (p : List Nat) (h : p.all isDigitN = true) :
    List.isPrefixOf [43, 52, 52] p = false := by
  cases p with
  | nil => rfl
  | cons c r =>
    have hc : isDigitN c = true := List.all_eq_true.mp h c (List.mem_cons_self c r)
    simp only [isDigitN, decide_eq_true_eq] at hc
    show ((43 : Nat) == c && List.isPrefixOf [52, 52] r) = false
    have h43 : ((43 : Nat) == c) = false := by
      rw [beq_eq_false_iff_ne]
      omega
    rw [h43, Bool.false_and]

theorem clean_phone_eq (t : List Nat) :
    clean_phone t =
      keepDigits
        (if List.isPrefixOf [43, 52, 52] (keepDigitsPlus (normalise_spaces t)) then
          48 :: (keepDigitsPlus (normalise_spaces t)).drop 3
        else keepDigitsPlus (normalise_spaces t)) := rfl

theorem clean_phone_all_digits (s : List Nat) : (clean_phone s).all isDigitN = true := by
  rw [clean_phone_eq]
  exact keepDigits_all _

theorem clean_phone_fix (t : List Nat) (h : t.all isDigitN = true) : clean_phone t = t := by
  rw [clean_phone_eq]
  rw [normalise_fix t (goodWS_of_wsFree t (wsFree_of_all_digits t h))]
  rw [keepDigitsPlus_fix t h]
  rw [plus44_not_of_digits t h]
  rw [if_neg (by simp)]
  exact keepDigits_fix t h

theorem clean_phone_idem (s : List Nat) : clean_phone (clean_phone s) = clean_phone s :=
  clean_phone_fix (clean_phone s) (clean_phone_all_digits s)

/-! ### clean_name idempotence -/

theorem isEmpty_congr (l1 l2 : List Nat) (h : l1.length = l2.length) :
    l1.isEmpty = l2.isEmpty := by
  cases l1 <;> cases l2 <;> simp_all

theorem headOK_of_wsFree (w : List Nat) (h : wsFree w = true) : headOK w = !w.isEmpty := by
  cases w with
  | nil => rfl
  | cons c r =>
    rcases wsFree_cons_elim c r h with ⟨h1, _⟩
    simp [headOK, h1]

theorem headOK_append_space (w r : List Nat) (h : wsFree w = true) :
    headOK (w ++ 32 :: r) = !w.isEmpty := by
  cases w with
  | nil =>
    rw [List.nil_append]
    show (!pyIsSpace 32) = !(List.isEmpty ([] : List Nat))
    decide
  | cons c w' =>
    rcases wsFree_cons_elim c w' h with ⟨h1, _⟩
    simp [headOK, h1]

theorem headOK_joinSep_map (f : List Nat → List Nat) (ws : List (List Nat))
    (hfree : ∀ w ∈ ws, wsFree w = true) (hffree : ∀ w ∈ ws, wsFree (f w) = true)
    (hlen : ∀ w ∈ ws, (f w).length = w.length) :
    headOK (joinSep [32] (ws.map f)) = headOK (joinSep [32] ws) := by
  cases ws with
  | nil => rfl
  | cons w rest =>
    cases rest with
    | nil =>
      show headOK (f w) = headOK w
      rw [headOK_of_wsFree _ (hffree w (List.mem_cons_self _ _)),
        headOK_of_wsFree _ (hfree w (List.mem_cons_self _ _)),
        isEmpty_congr _ _ (hlen w (List.mem_cons_self _ _))]
    | cons w2 ws2 =>
      rw [List.map_cons, joinSep_cons 32 (f w) _ (by simp), joinSep_cons 32 w _ (by simp)]
      rw [headOK_append_space _ _ (hffree w (List.mem_cons_self _ _)),
        headOK_append_space _ _ (hfree w (List.mem_cons_self _ _)),
        isEmpty_congr _ _ (hlen w (List.mem_cons_self _ _))]

theorem wsOK_joinSep_map (f : List Nat → List Nat) (ws : List (List Nat))
    (hfree : ∀ w ∈ ws, wsFree w = true) (hffree : ∀ w ∈ ws, wsFree (f w) = true)
    (hlen : ∀ w ∈ ws, (f w).length = w.length) :
    wsOK (joinSep [32] (ws.map f)) = wsOK (joinSep [32] ws) := by
  induction ws with
  | nil => rfl
  | cons w rest ih =>
    cases rest with
    | nil =>
      show wsOK (f w) = wsOK w
      rw [wsFree_wsOK _ (hffree w (List.mem_cons_self _ _)),
        wsFree_wsOK _ (hfree w (List.mem_cons_self _ _))]
    | cons w2 ws2 =>
      rw [List.map_cons, joinSep_cons 32 (f w) _ (by simp), joinSep_cons 32 w _ (by simp)]
      rw [wsOK_append_wsFree _ _ (hffree w (List.mem_cons_self _ _)),
        wsOK_append_wsFree _ _ (hfree w (List.mem_cons_self _ _))]
      have h32 : pyIsSpace 32 = true := by decide
      rw [wsOK_cons, wsOK_cons, if_pos h32, if_pos h32]
      rw [headOK_joinSep_map f (w2 :: ws2)
        (fun u hu => hfree u (List.mem_cons_of_mem _ hu))
        (fun u hu => hffree u (List.mem_cons_of_mem _ hu))
        (fun u hu => hlen u (List.mem_cons_of_mem _ hu))]
      rw [ih (fun u hu => hfree u (List.mem_cons_of_mem _ hu))
        (fun u hu => hffree u (List.mem_cons_of_mem _ hu))
        (fun u hu => hlen u (List.mem_cons_of_mem _ hu))]

theorem goodWS_joinSep_map (f : List Nat → List Nat) (ws : List (List Nat))
    (hfree : ∀ w ∈ ws, wsFree w = true) (hffree : ∀ w ∈ ws, wsFree (f w) = true)
    (hlen : ∀ w ∈ ws, (f w).length = w.length) :
    goodWS (joinSep [32] (ws.map f)) = goodWS (joinSep [32] ws) := by
  unfold goodWS
  rw [wsOK_joinSep_map f ws hfree hffree hlen,
    headOK_joinSep_map f ws hfree hffree hlen,
    isEmpty_congr _ _ (joinSep_length_map 32 f ws hlen)]

theorem wordsOf_wsFree (s : List Nat) :
    ∀ w ∈ splitOnCh 32 (normalise_spaces s), wsFree w = true := by
  intro w hw
  apply wsFree_intro
  intro c hc
  by_contra hcc
  simp only [Bool.not_eq_false] at hcc
  have hmem : c ∈ collapseWS false (pyStrip s) := splitOnCh_subset 32 _ w hw c hc
  have h322 : c = 32 := collapseWS_only32 false _ c hmem hcc
  exact splitOnCh_no_sep 32 _ w hw (h322 ▸ hc)

theorem cleanNameWord_wsFree (w : List Nat) (h : wsFree w = true) :
    wsFree (cleanNameWord w) = true := by
  apply wsFree_intro
  intro c hc
  rcases mem_joinSep 45 c _ hc with h45 | ⟨p, hp, hcp⟩
  · rw [h45]; decide
  · rcases List.mem_map.mp hp with ⟨q, hq, rfl⟩
    have hq2 : wsFree q = true :=
      wsFree_intro q fun a ha => wsFree_elim w h a (splitOnCh_subset 45 w q hq a ha)
    exact wsFree_elim _ (capWord_wsFree q hq2) c hcp

theorem clean_name_eq (t : List Nat) :
    clean_name t =
      (if normalise_spaces t = [] then []
       else joinSep [32] ((splitOnCh 32 (normalise_spaces t)).map cleanNameWord)) := rfl

theorem clean_name_idem (s : List Nat) : clean_name (clean_name s) = clean_name s := by
  rw [clean_name_eq s]
  by_cases h : normalise_spaces s = []
  · rw [if_pos h, clean_name_eq, if_pos (show normalise_spaces [] = ([] : List Nat) from rfl)]
  · rw [if_neg h, clean_name_eq]
    have hword : ∀ w ∈ splitOnCh 32 (normalise_spaces s), wsFree w = true := wordsOf_wsFree s
    have hfword : ∀ w ∈ splitOnCh 32 (normalise_spaces s), wsFree (cleanNameWord w) = true :=
      fun w hw => cleanNameWord_wsFree w (hword w hw)
    have hlen : ∀ w ∈ splitOnCh 32 (normalise_spaces s), (cleanNameWord w).length = w.length :=
      fun w _ => cleanNameWord_length w
    have hJlen :
        (joinSep [32] ((splitOnCh 32 (normalise_spaces s)).map cleanNameWord)).length =
          (normalise_spaces s).length := by
      rw [joinSep_length_map 32 cleanNameWord _ hlen, joinSep_splitOnCh]
    have hgood :
        goodWS (joinSep [32] ((splitOnCh 32 (normalise_spaces s)).map cleanNameWord)) = true := by
      rw [goodWS_joinSep_map cleanNameWord (splitOnCh 32 (normalise_spaces s)) hword hfword hlen,
        joinSep_splitOnCh]
      exact goodWS_normalise s
    rw [normalise_fix _ hgood]
    have hne : joinSep [32] ((splitOnCh 32 (normalise_spaces s)).map cleanNameWord) ≠ [] := by
      intro hJ
      apply h
      have h0 : (normalise_spaces s).length = 0 := by rw [← hJlen, hJ]; rfl
      exact List.length_eq_zero.mp h0
    rw [if_neg hne]
    rw [splitOnCh_joinSep 32 _
      (by
        intro hm
        exact splitOnCh_ne_nil 32 (normalise_spaces s) (List.map_eq_nil.mp hm))
      (by
        intro v hv
        rcases List.mem_map.mp hv with ⟨q, hq, rfl⟩
        exact not_mem32_of_wsFree _ (hfword q hq))]
    rw [List.map_map]
    congr 1
    apply List.map_congr_left
    intro w _
    exact cleanNameWord_idem w

/-! ### Deduplication lemmas -/

theorem dedupeAux_nil (idx : Nat) (acc : List (DKey × Contact)) (dups : Nat) :
    dedupeAux [] idx acc dups = (acc, dups) := rfl

theorem dedupeAux_cons (c : Contact) (rest : List Contact) (idx : Nat)
    (acc : List (DKey × Contact)) (dups : Nat) :
    dedupeAux (c :: rest) idx acc dups =
      (if c.email = [] then
        dedupeAux rest (idx + 1) (acc ++ [(DKey.noemail idx, c)]) dups
      else
        match findEmail acc c.email with
        | none => dedupeAux rest (idx + 1) (acc ++ [(DKey.email c.email, c)]) dups
        | some p =>
          if completeness_score c > completeness_score p.2 then
            dedupeAux rest (idx + 1) (replaceKey acc (DKey.email c.email) c) (dups + 1)
          else
            dedupeAux rest (idx + 1) acc (dups + 1)) := rfl

theorem dedupeAux_cons_empty (c : Contact) (rest : List Contact) (idx : Nat)
    (acc : List (DKey × Contact)) (dups : Nat) (h : c.email = []) :
    dedupeAux (c :: rest) idx acc dups =
      dedupeAux rest (idx + 1) (acc ++ [(DKey.noemail idx, c)]) dups := by
  rw [dedupeAux_cons, if_pos h]

theorem dedupeAux_cons_new (c : Contact) (rest : List Contact) (idx : Nat)
    (acc : List (DKey × Contact)) (dups : Nat) (h : c.email ≠ [])
    (hf : findEmail acc c.email = none) :
    dedupeAux (c :: rest) idx acc dups =
      dedupeAux rest (idx + 1) (acc ++ [(DKey.email c.email, c)]) dups := by
  rw [dedupeAux_cons, if_neg h, hf]

theorem dedupeAux_cons_dup (c : Contact) (rest : List Contact) (idx : Nat)
    (acc : List (DKey × Contact)) (dups : Nat) (p : DKey × Contact) (h : c.email ≠ [])
    (hf : findEmail acc c.email = some p) :
    dedupeAux (c :: rest) idx acc dups =
      (if completeness_score c > completeness_score p.2 then
        dedupeAux rest (idx + 1) (replaceKey acc (DKey.email c.email) c) (dups + 1)
      else
        dedupeAux rest (idx + 1) acc (dups + 1)) := by
  rw [dedupeAux_cons, if_neg h, hf]

theorem dedupeAux_append (xs ys : List Contact) (idx : Nat) (acc : List (DKey × Contact))
    (dups : Nat) :
    dedupeAux (xs ++ ys) idx acc dups =
      dedupeAux ys (idx + xs.length) (dedupeAux xs idx acc dups).1
        (dedupeAux xs idx acc dups).2 := by
  induction xs generalizing idx acc dups with
  | nil => simp [dedupeAux_nil]
  | cons c rest ih =>
    have hidx : idx + 1 + rest.length = idx + (rest.length + 1) := by omega
    rw [List.cons_append]
    simp only [List.length_cons]
    by_cases h : c.email = []
    · rw [dedupeAux_cons_empty c (rest ++ ys) idx acc dups h,
        dedupeAux_cons_empty c rest idx acc dups h, ih, hidx]
    · cases hf : findEmail acc c.email with
      | none =>
        rw [dedupeAux_cons_new c (rest ++ ys) idx acc dups h hf,
          dedupeAux_cons_new c rest idx acc dups h hf, ih, hidx]
      | some p =>
        rw [dedupeAux_cons_dup c (rest ++ ys) idx acc dups p h hf,
          dedupeAux_cons_dup c rest idx acc dups p h hf]
        by_cases hs : completeness_score c > completeness_score p.2
        · rw [if_pos hs, if_pos hs, ih, hidx]
        · rw [if_neg hs, if_neg hs, ih, hidx]

theorem emailKeys_map_fst_eq (acc : List (DKey × Contact)) (f : DKey × Contact → DKey × Contact)
    (hf : ∀ p, (f p).1 = p.1) : emailKeys (acc.map f) = emailKeys acc := by
  induction acc with
  | nil => rfl
  | cons p rest ih =>
    rw [List.map_cons]
    unfold emailKeys at ih ⊢
    rw [List.filterMap_cons, List.filterMap_cons, hf p, ih]

theorem emailKeys_replaceKey (acc : List (DKey × Contact)) (k : DKey) (c : Contact) :
    emailKeys (replaceKey acc k c) = emailKeys acc := by
  unfold replaceKey
  apply emailKeys_map_fst_eq
  intro p
  by_cases h : p.1 = k <;> simp [h]

theorem emailKeys_append_noemail (acc : List (DKey × Contact)) (n : Nat) (c : Contact) :
    emailKeys (acc ++ [(DKey.noemail n, c)]) = emailKeys acc := by
  unfold emailKeys
  rw [List.filterMap_append]
  simp [List.filterMap]

theorem emailKeys_append_email (acc : List (DKey × Contact)) (e : List Nat) (c : Contact) :
    emailKeys (acc ++ [(DKey.email e, c)]) = emailKeys acc ++ [e] := by
  unfold emailKeys
  rw [List.filterMap_append]
  simp [List.filterMap]

theorem findEmail_append (acc1 acc2 : List (DKey × Contact)) (e : List Nat) :
    findEmail (acc1 ++ acc2) e = (findEmail acc1 e).or (findEmail acc2 e) := by
  unfold findEmail
  exact List.find?_append

theorem findEmail_append_ne (acc : List (DKey × Contact)) (k : DKey) (c : Contact) (e : List Nat)
    (h : k ≠ DKey.email e) : findEmail (acc ++ [(k, c)]) e = findEmail acc e := by
  rw [findEmail_append]
  have h1 : findEmail [(k, c)] e = none := by
    unfold findEmail
    rw [List.find?_cons]
    simp [h]
  rw [h1]
  cases findEmail acc e <;> rfl

theorem findEmail_append_self (acc : List (DKey × Contact)) (e : List Nat) (c : Contact)
    (h : findEmail acc e = none) :
    findEmail (acc ++ [(DKey.email e, c)]) e = some (DKey.email e, c) := by
  rw [findEmail_append, h]
  unfold findEmail
  rw [List.find?_cons]
  simp

theorem findEmail_replaceKey_ne (acc : List (DKey × Contact)) (k : DKey) (c : Contact)
    (e : List Nat) (h : k ≠ DKey.email e) :
    findEmail (replaceKey acc k c) e = findEmail acc e := by
  induction acc with
  | nil => rfl
  | cons p rest ih =>
    show findEmail ((if p.1 = k then (k, c) else p) :: replaceKey rest k c) e = _
    unfold findEmail at ih ⊢
    rw [List.find?_cons, List.find?_cons]
    by_cases hp : p.1 = k
    · rw [if_pos hp]
      have e1 : (decide ((k, c).1 = DKey.email e)) = false := by simp [h]
      have e2 : (decide (p.1 = DKey.email e)) = false := by simp [hp, h]
      rw [e1, e2]
      exact ih
    · rw [if_neg hp]
      cases hd : decide (p.1 = DKey.email e) with
      | true => rfl
      | false => exact ih

theorem replaceKey_getElem? (acc : List (DKey × Contact)) (k : DKey) (c : Contact) (i : Nat) :
    (replaceKey acc k c)[i]? = (acc[i]?).map fun p => if p.1 = k then (k, c) else p := by
  unfold replaceKey
  exact List.getElem?_map ..

theorem dedupe_preserve (l : List Contact) (e : List Nat) (he : ∀ c ∈ l, c.email ≠ e) :
    ∀ (idx : Nat) (acc : List (DKey × Contact)) (dups : Nat),
      findEmail ((dedupeAux l idx acc dups).1) e = findEmail acc e ∧
      ∀ (i : Nat) (r : Contact), acc[i]? = some (DKey.email e, r) →
        ((dedupeAux l idx acc dups).1)[i]? = some (DKey.email e, r) := by
  induction l with
  | nil =>
    intro idx acc dups
    exact ⟨rfl, fun i r h => h⟩
  | cons c rest ih =>
    intro idx acc dups
    have hce : c.email ≠ e := he c (List.mem_cons_self _ _)
    have he' : ∀ u ∈ rest, u.email ≠ e := fun u hu => he u (List.mem_cons_of_mem _ hu)
    by_cases hnil : c.email = []
    · rw [dedupeAux_cons_empty c rest idx acc dups hnil]
      obtain ⟨ihf, ihg⟩ := ih he' (idx + 1) (acc ++ [(DKey.noemail idx, c)]) dups
      constructor
      · rw [ihf, findEmail_append_ne acc _ c e (by simp)]
      · intro i r hir
        apply ihg
        have hi : i < acc.length := (List.getElem?_eq_some.mp hir).1
        rw [List.getElem?_append_left hi]
        exact hir
    · cases hf : findEmail acc c.email with
      | none =>
        rw [dedupeAux_cons_new c rest idx acc dups hnil hf]
        obtain ⟨ihf, ihg⟩ := ih he' (idx + 1) (acc ++ [(DKey.email c.email, c)]) dups
        constructor
        · rw [ihf, findEmail_append_ne acc _ c e (by simp [hce])]
        · intro i r hir
          apply ihg
          have hi : i < acc.length := (List.getElem?_eq_some.mp hir).1
          rw [List.getElem?_append_left hi]
          exact hir
      | some p =>
        rw [dedupeAux_cons_dup c rest idx acc dups p hnil hf]
        by_cases hs : completeness_score c > completeness_score p.2
        · rw [if_pos hs]
          obtain ⟨ihf, ihg⟩ := ih he' (idx + 1) (replaceKey acc (DKey.email c.email) c) (dups + 1)
          constructor
          · rw [ihf, findEmail_replaceKey_ne acc _ c e (by simp [hce])]
          · intro i r hir
            apply ihg
            rw [replaceKey_getElem?, hir]
            simp only [Option.map_some']
            rw [if_neg (fun hk => hce (DKey.email.inj hk).symm)]
        · rw [if_neg hs]
          exact ih he' (idx + 1) acc (dups + 1)

theorem findEmail_eq_none_iff (acc : List (DKey × Contact)) (e : List Nat) :
    findEmail acc e = none ↔ e ∉ emailKeys acc := by
  unfold findEmail emailKeys
  rw [List.find?_eq_none]
  constructor
  · intro h hmem
    rcases List.mem_filterMap.mp hmem with ⟨p, hp, hpe⟩
    have hp1 : p.1 = DKey.email e := by
      cases hk : p.1 with
      | email e2 =>
        rw [hk] at hpe
        simp only [Option.some.injEq] at hpe
        rw [hpe]
      | noemail n =>
        rw [hk] at hpe
        simp at hpe
    exact h p hp (by simp [hp1])
  · intro h p hp hpe
    simp only [decide_eq_true_eq] at hpe
    apply h
    exact List.mem_filterMap.mpr ⟨p, hp, by rw [hpe]⟩

theorem nonemptyEmails_cons_empty (c : Contact) (rest : List Contact) (h : c.email = []) :
    nonemptyEmails (c :: rest) = nonemptyEmails rest := by
  unfold nonemptyEmails
  rw [List.map_cons, List.filter_cons, if_neg (by simp [h])]

theorem nonemptyEmails_cons_nonempty (c : Contact) (rest : List Contact) (h : c.email ≠ []) :
    nonemptyEmails (c :: rest) = c.email :: nonemptyEmails rest := by
  unfold nonemptyEmails
  rw [List.map_cons, List.filter_cons, if_pos (by simp [h])]

theorem replaceKey_length (acc : List (DKey × Contact)) (k : DKey) (c : Contact) :
    (replaceKey acc k c).length = acc.length := by
  unfold replaceKey
  exact List.length_map ..

theorem dedupe_count (l : List Contact) :
    ∀ (idx : Nat) (acc : List (DKey × Contact)) (dups : Nat),
      ((dedupeAux l idx acc dups).1).length =
        acc.length + ((nonemptyEmails l).toFinset \ (emailKeys acc).toFinset).card +
          l.countP (fun c => c.email.isEmpty) ∧
      (dedupeAux l idx acc dups).2 +
          ((nonemptyEmails l).toFinset \ (emailKeys acc).toFinset).card =
        dups + l.countP (fun c => !c.email.isEmpty) := by
  induction l with
  | nil =>
    intro idx acc dups
    constructor
    · simp [dedupeAux_nil, nonemptyEmails]
    · simp [dedupeAux_nil, nonemptyEmails]
  | cons c rest ih =>
    intro idx acc dups
    by_cases hnil : c.email = []
    · rw [dedupeAux_cons_empty c rest idx acc dups hnil]
      obtain ⟨ih1, ih2⟩ := ih (idx + 1) (acc ++ [(DKey.noemail idx, c)]) dups
      rw [emailKeys_append_noemail] at ih1 ih2
      rw [nonemptyEmails_cons_empty c rest hnil]
      constructor
      · rw [ih1]
        simp only [List.length_append, List.length_cons, List.length_nil, List.countP_cons]
        rw [if_pos (by simp [hnil])]
        omega
      · rw [ih2]
        simp only [List.countP_cons]
        rw [if_neg (by simp [hnil])]
        omega
    · cases hf : findEmail acc c.email with
      | none =>
        have hkey : c.email ∉ emailKeys acc := (findEmail_eq_none_iff acc c.email).mp hf
        rw [dedupeAux_cons_new c rest idx acc dups hnil hf]
        obtain ⟨ih1, ih2⟩ := ih (idx + 1) (acc ++ [(DKey.email c.email, c)]) dups
        rw [emailKeys_append_email] at ih1 ih2
        have hins : (emailKeys acc ++ [c.email]).toFinset =
            insert c.email (emailKeys acc).toFinset := by
          rw [List.toFinset_append]
          ext a
          simp [or_comm]
        rw [hins] at ih1 ih2
        have hset : ((nonemptyEmails (c :: rest)).toFinset \ (emailKeys acc).toFinset).card =
            ((nonemptyEmails rest).toFinset \
              insert c.email (emailKeys acc).toFinset).card + 1 := by
          rw [nonemptyEmails_cons_nonempty c rest hnil, List.toFinset_cons]
          have hK : c.email ∉ (emailKeys acc).toFinset := by
            rw [List.mem_toFinset]
            exact hkey
          have h3 : insert c.email (nonemptyEmails rest).toFinset \ (emailKeys acc).toFinset =
              insert c.email
                ((nonemptyEmails rest).toFinset \ (emailKeys acc).toFinset) := by
            ext a
            simp only [Finset.mem_sdiff, Finset.mem_insert]
            constructor
            · rintro ⟨h5 | h5, h6⟩
              · left; exact h5
              · right; exact ⟨h5, h6⟩
            · rintro (h5 | ⟨h5, h6⟩)
              · subst h5
                exact ⟨Or.inl rfl, hK⟩
              · exact ⟨Or.inr h5, h6⟩
          have h4 : (nonemptyEmails rest).toFinset \ insert c.email (emailKeys acc).toFinset =
              ((nonemptyEmails rest).toFinset \ (emailKeys acc).toFinset).erase c.email := by
            ext a
            simp only [Finset.mem_sdiff, Finset.mem_insert, Finset.mem_erase]
            tauto
          rw [h3, h4]
          by_cases hT : c.email ∈ (nonemptyEmails rest).toFinset \ (emailKeys acc).toFinset
          · rw [Finset.insert_eq_self.mpr hT, Finset.card_erase_add_one hT]
          · rw [Finset.erase_eq_of_not_mem hT, Finset.card_insert_of_not_mem hT]
        constructor
        · rw [ih1, hset]
          simp only [List.length_append, List.length_cons, List.length_nil, List.countP_cons]
          rw [if_neg (by simp [hnil])]
          omega
        · rw [List.countP_cons, if_pos (by simp [hnil])]
          omega
      | some p =>
        have hkey : c.email ∈ emailKeys acc := by
          by_contra hk
          rw [← findEmail_eq_none_iff] at hk
          rw [hk] at hf
          simp at hf
        rw [dedupeAux_cons_dup c rest idx acc dups p hnil hf]
        have hset : (nonemptyEmails (c :: rest)).toFinset \ (emailKeys acc).toFinset =
            (nonemptyEmails rest).toFinset \ (emailKeys acc).toFinset := by
          rw [nonemptyEmails_cons_nonempty c rest hnil, List.toFinset_cons]
          exact Finset.insert_sdiff_of_mem _ (List.mem_toFinset.mpr hkey)
        rw [hset]
        by_cases hs : completeness_score c > completeness_score p.2
        · rw [if_pos hs]
          obtain ⟨ih1, ih2⟩ := ih (idx + 1) (replaceKey acc (DKey.email c.email) c) (dups + 1)
          rw [emailKeys_replaceKey] at ih1 ih2
          constructor
          · rw [ih1, replaceKey_length]
            simp only [List.countP_cons]
            rw [if_neg (by simp [hnil])]
            omega
          · rw [List.countP_cons, if_pos (by simp [hnil])]
            omega
        · rw [if_neg hs]
          obtain ⟨ih1, ih2⟩ := ih (idx + 1) acc (dups + 1)
          constructor
          · rw [ih1]
            simp only [List.countP_cons]
            rw [if_neg (by simp [hnil])]
            omega
          · rw [List.countP_cons, if_pos (by simp [hnil])]
            omega

theorem dedupe_mem (l : List Contact) :
    ∀ (idx : Nat) (acc : List (DKey × Contact)) (dups : Nat) (c : Contact),
      c ∈ ((dedupeAux l idx acc dups).1).map Prod.snd →
        c ∈ acc.map Prod.snd ∨ c ∈ l := by
  induction l with
  | nil =>
    intro idx acc dups c hc
    left
    exact hc
  | cons u rest ih =>
    intro idx acc dups c hc
    by_cases hnil : u.email = []
    · rw [dedupeAux_cons_empty u rest idx acc dups hnil] at hc
      rcases ih (idx + 1) _ dups c hc with h | h
      · rw [List.map_append] at h
        rcases List.mem_append.mp h with h | h
        · left; exact h
        · right
          simp only [List.map_cons, List.map_nil, List.mem_singleton] at h
          rw [h]
          exact List.mem_cons_self _ _
      · right; exact List.mem_cons_of_mem _ h
    · cases hf : findEmail acc u.email with
      | none =>
        rw [dedupeAux_cons_new u rest idx acc dups hnil hf] at hc
        rcases ih (idx + 1) _ dups c hc with h | h
        · rw [List.map_append] at h
          rcases List.mem_append.mp h with h | h
          · left; exact h
          · right
            simp only [List.map_cons, List.map_nil, List.mem_singleton] at h
            rw [h]
            exact List.mem_cons_self _ _
        · right; exact List.mem_cons_of_mem _ h
      | some p =>
        rw [dedupeAux_cons_dup u rest idx acc dups p hnil hf] at hc
        by_cases hs : completeness_score u > completeness_score p.2
        · rw [if_pos hs] at hc
          rcases ih (idx + 1) _ (dups + 1) c hc with h | h
          · rcases List.mem_map.mp h with ⟨q, hq, rfl⟩
            unfold replaceKey at hq
            rcases List.mem_map.mp hq with ⟨q2, hq2, rfl⟩
            by_cases hq3 : q2.1 = DKey.email u.email
            · rw [if_pos hq3]
              right
              exact List.mem_cons_self _ _
            · rw [if_neg hq3]
              left
              exact List.mem_map.mpr ⟨q2, hq2, rfl⟩
          · right; exact List.mem_cons_of_mem _ h
        · rw [if_neg hs] at hc
          rcases ih (idx + 1) acc (dups + 1) c hc with h | h
          · left; exact h
          · right; exact List.mem_cons_of_mem _ h

/-! ### The email regex: full-match characterisation -/

theorem getElem?_append_length (A : List Nat) (x : Nat) (r : List Nat) :
    (A ++ x :: r)[A.length]? = some x := by
  induction A with
  | nil => simp
  | cons a A ih => simpa using ih

theorem drop_append_length (A : List Nat) (x : Nat) (r : List Nat) :
    (A ++ x :: r).drop (A.length + 1) = r := by
  induction A with
  | nil => rfl
  | cons a A ih => simpa using ih

theorem emailFullMatch_iff (t : List Nat) : emailFullMatch t = true ↔ EmailShape t := by
  unfold emailFullMatch EmailShape
  rw [List.any_eq_true]
  constructor
  · rintro ⟨i, hi, h2⟩
    rw [List.mem_range] at hi
    rw [List.any_eq_true] at h2
    obtain ⟨j, hj, h3⟩ := h2
    rw [List.mem_range] at hj
    simp only [Bool.and_eq_true, decide_eq_true_eq, beq_iff_eq] at h3
    obtain ⟨⟨⟨⟨⟨⟨⟨h1i, hij⟩, hjt⟩, hti⟩, htj⟩, hap⟩, hau⟩, hav⟩ := h3
    obtain ⟨hilt, htieq⟩ := List.getElem?_eq_some.mp hti
    obtain ⟨hjlt, htjeq⟩ := List.getElem?_eq_some.mp htj
    refine ⟨t.take i, (t.drop (i + 1)).take (j - (i + 1)), t.drop (j + 1), ?_, ?_, ?_, ?_,
      fun c hc => List.all_eq_true.mp hap c hc,
      fun c hc => List.all_eq_true.mp hau c hc,
      fun c hc => List.all_eq_true.mp hav c hc⟩
    · have e2 : t.drop i = 64 :: t.drop (i + 1) := by
        rw [List.drop_eq_getElem_cons hilt, htieq]
      have e5 : t.drop j = 46 :: t.drop (j + 1) := by
        rw [List.drop_eq_getElem_cons hjlt, htjeq]
      have e4 : (t.drop (i + 1)).drop (j - (i + 1)) = t.drop j := by
        rw [List.drop_drop]
        congr 1
        omega
      have e3 : t.drop (i + 1) =
          (t.drop (i + 1)).take (j - (i + 1)) ++ (46 :: t.drop (j + 1)) := by
        conv_lhs => rw [← List.take_append_drop (j - (i + 1)) (t.drop (i + 1))]
        rw [e4, e5]
      conv_lhs => rw [← List.take_append_drop i t, e2, e3]
    · have : (t.take i).length = i := by
        rw [List.length_take]
        omega
      intro hnil
      rw [hnil] at this
      simp at this
      omega
    · have : ((t.drop (i + 1)).take (j - (i + 1))).length = j - (i + 1) := by
        rw [List.length_take, List.length_drop]
        omega
      intro hnil
      rw [hnil] at this
      simp at this
      omega
    · have : (t.drop (j + 1)).length = t.length - (j + 1) := List.length_drop ..
      intro hnil
      rw [hnil] at this
      simp at this
      omega
  · rintro ⟨p, u, v, ht, hp, hu, hv, hap, hau, hav⟩
    have hplen : 1 ≤ p.length := List.length_pos.mpr hp
    have hulen : 1 ≤ u.length := List.length_pos.mpr hu
    have hvlen : 1 ≤ v.length := List.length_pos.mpr hv
    have hlen : t.length = p.length + 1 + (u.length + 1 + v.length) := by
      rw [ht]
      simp [List.length_append]
      omega
    have ht2 : t = (p ++ 64 :: u) ++ 46 :: v := by
      rw [ht]
      simp
    refine ⟨p.length, List.mem_range.mpr (by omega), ?_⟩
    rw [List.any_eq_true]
    refine ⟨p.length + 1 + u.length, List.mem_range.mpr (by omega), ?_⟩
    simp only [Bool.and_eq_true, decide_eq_true_eq, beq_iff_eq]
    have hmid : p.length + 1 + u.length = (p ++ 64 :: u).length := by
      simp
      omega
    refine ⟨⟨⟨⟨⟨⟨⟨by omega, by omega⟩, by omega⟩, ?_⟩, ?_⟩, ?_⟩, ?_⟩, ?_⟩
    · rw [ht, getElem?_append_length]
    · rw [hmid, ht2, getElem?_append_length]
    · rw [ht, List.take_left, List.all_eq_true]
      exact hap
    · have hdrop : t.drop (p.length + 1) = u ++ 46 :: v := by
        rw [ht, drop_append_length]
      rw [hdrop]
      have harith : p.length + 1 + u.length - (p.length + 1) = u.length := by omega
      rw [harith, List.take_left, List.all_eq_true]
      exact hau
    · have : p.length + 1 + u.length + 1 = (p ++ 64 :: u).length + 1 := by omega
      rw [this, ht2, drop_append_length, List.all_eq_true]
      exact hav

/-! ### Positional characterisation of `str.title()` -/

theorem pyTitleAux_getElem (u : List Nat) :
    ∀ (b : Bool) (i : Nat),
      (pyTitleAux b u)[i]? =
        (u[i]?).map (titleChar (if i = 0 then b else prevAlpha u i)) := by
  induction u with
  | nil => intro b i; rfl
  | cons c rest ih =>
    intro b i
    rw [pyTitleAux_cons2]
    cases i with
    | zero =>
      simp only [List.getElem?_cons_zero, Option.map_some', if_pos rfl]
      simp
    | succ j =>
      rw [List.getElem?_cons_succ, List.getElem?_cons_succ, ih (isAlphaN c) j]
      have hflag : (if j = 0 then isAlphaN c else prevAlpha rest j) =
          prevAlpha (c :: rest) (j + 1) := by
        cases j with
        | zero => simp [prevAlpha]
        | succ k => simp [prevAlpha, List.getElem?_cons_succ]
      rw [hflag, if_neg (Nat.succ_ne_zero j)]

/-! ### State of the dedupe dict after the first record with a given email -/

theorem dedupe_state_mid (l₁ l₂ : List Contact) (c₁ : Contact) (he : c₁.email ≠ [])
    (h₁ : ∀ c ∈ l₁, c.email ≠ c₁.email) (h₂ : ∀ c ∈ l₂, c.email ≠ c₁.email) :
    findEmail ((dedupeAux (l₁ ++ c₁ :: l₂) 0 [] 0).1) c₁.email =
        some (DKey.email c₁.email, c₁) ∧
      ((dedupeAux (l₁ ++ c₁ :: l₂) 0 [] 0).1)[((dedupeAux l₁ 0 [] 0).1).length]? =
        some (DKey.email c₁.email, c₁) := by
  have hfA : findEmail ((dedupeAux l₁ 0 [] 0).1) c₁.email = none := by
    obtain ⟨hf1, _⟩ := dedupe_preserve l₁ c₁.email h₁ 0 [] 0
    rw [hf1]
    rfl
  rw [dedupeAux_append l₁ (c₁ :: l₂) 0 [] 0]
  rw [dedupeAux_cons_new c₁ l₂ (0 + l₁.length) ((dedupeAux l₁ 0 [] 0).1)
    ((dedupeAux l₁ 0 [] 0).2) he hfA]
  obtain ⟨hf2, hg2⟩ := dedupe_preserve l₂ c₁.email h₂ (0 + l₁.length + 1)
    ((dedupeAux l₁ 0 [] 0).1 ++ [(DKey.email c₁.email, c₁)]) ((dedupeAux l₁ 0 [] 0).2)
  constructor
  · rw [hf2]
    exact findEmail_append_self _ c₁.email c₁ hfA
  · apply hg2
    rw [List.getElem?_concat_length]

theorem nonemptyEmails_append (xs ys : List Contact) :
    nonemptyEmails (xs ++ ys) = nonemptyEmails xs ++ nonemptyEmails ys := by
  unfold nonemptyEmails
  rw [List.map_append, List.filter_append]

theorem dedupe_insert_last (l₁ : List Contact) (c₁ : Contact) (he : c₁.email ≠ [])
    (h₁ : ∀ c ∈ l₁, c.email ≠ c₁.email) :
    (deduped_contacts (l₁ ++ [c₁]))[(deduped_contacts l₁).length]? = some c₁ := by
  unfold deduped_contacts dedupe
  rw [List.length_map, dedupeAux_append l₁ [c₁] 0 [] 0]
  have hfA : findEmail ((dedupeAux l₁ 0 [] 0).1) c₁.email = none := by
    obtain ⟨hf1, _⟩ := dedupe_preserve l₁ c₁.email h₁ 0 [] 0
    rw [hf1]
    rfl
  rw [dedupeAux_cons_new c₁ [] (0 + l₁.length) ((dedupeAux l₁ 0 [] 0).1)
    ((dedupeAux l₁ 0 [] 0).2) he hfA]
  rw [dedupeAux_nil, List.getElem?_map, List.getElem?_concat_length]
  rfl

/-! ### Claim theorems -/

/-- C7: when a later record shares the stored record's nonempty email and has a
strictly higher completeness score, the stored record is replaced in place: the
output holds the later record's field values at the position where the earlier
record was first inserted. -/
theorem C7_dedupe_replace (l₁ l₂ l₃ : List Contact) (c₁ c₂ : Contact)
    (he : c₁.email ≠ []) (he2 : c₂.email = c₁.email)
    (hs : completeness_score c₂ > completeness_score c₁)
    (h₁ : ∀ c ∈ l₁, c.email ≠ c₁.email) (h₂ : ∀ c ∈ l₂, c.email ≠ c₁.email)
    (h₃ : ∀ c ∈ l₃, c.email ≠ c₁.email) :
    (deduped_contacts (l₁ ++ [c₁]))[(deduped_contacts l₁).length]? = some c₁ ∧
      (deduped_contacts (l₁ ++ c₁ :: (l₂ ++ c₂ :: l₃)))[(deduped_contacts l₁).length]? =
        some c₂ := by
  constructor
  · exact dedupe_insert_last l₁ c₁ he h₁
  · have hsplit : l₁ ++ c₁ :: (l₂ ++ c₂ :: l₃) = (l₁ ++ c₁ :: l₂) ++ (c₂ :: l₃) := by
      simp
    rw [hsplit]
    unfold deduped_contacts dedupe
    rw [List.length_map, dedupeAux_append (l₁ ++ c₁ :: l₂) (c₂ :: l₃) 0 [] 0]
    obtain ⟨hfB, hgB⟩ := dedupe_state_mid l₁ l₂ c₁ he h₁ h₂
    have he2' : c₂.email ≠ [] := by
      rw [he2]
      exact he
    have hfB2 : findEmail ((dedupeAux (l₁ ++ c₁ :: l₂) 0 [] 0).1) c₂.email =
        some (DKey.email c₁.email, c₁) := by
      rw [he2]
      exact hfB
    rw [dedupeAux_cons_dup c₂ l₃ (0 + (l₁ ++ c₁ :: l₂).length)
      ((dedupeAux (l₁ ++ c₁ :: l₂) 0 [] 0).1) ((dedupeAux (l₁ ++ c₁ :: l₂) 0 [] 0).2)
      (DKey.email c₁.email, c₁) he2' hfB2]
    rw [if_pos hs]
    obtain ⟨_, hg3⟩ := dedupe_preserve l₃ c₁.email h₃ (0 + (l₁ ++ c₁ :: l₂).length + 1)
      (replaceKey ((dedupeAux (l₁ ++ c₁ :: l₂) 0 [] 0).1) (DKey.email c₂.email) c₂)
      ((dedupeAux (l₁ ++ c₁ :: l₂) 0 [] 0).2 + 1)
    have hrep : (replaceKey ((dedupeAux (l₁ ++ c₁ :: l₂) 0 [] 0).1) (DKey.email c₂.email)
        c₂)[((dedupeAux l₁ 0 [] 0).1).length]? = some (DKey.email c₁.email, c₂) := by
      rw [replaceKey_getElem?, hgB]
      simp only [Option.map_some']
      rw [he2, if_pos rfl]
    rw [List.getElem?_map, hg3 _ c₂ hrep]
    rfl

/-- C6: when a later record shares the stored record's nonempty email and the
completeness scores are equal, the first-seen record is retained at its position
in the output, and duplicates_removed is incremented for the later record. -/
theorem C6_dedupe_tie (l₁ l₂ l₃ : List Contact) (c₁ c₂ : Contact)
    (he : c₁.email ≠ []) (he2 : c₂.email = c₁.email)
    (hs : completeness_score c₂ = completeness_score c₁)
    (h₁ : ∀ c ∈ l₁, c.email ≠ c₁.email) (h₂ : ∀ c ∈ l₂, c.email ≠ c₁.email)
    (h₃ : ∀ c ∈ l₃, c.email ≠ c₁.email) :
    (deduped_contacts (l₁ ++ [c₁]))[(deduped_contacts l₁).length]? = some c₁ ∧
      (deduped_contacts (l₁ ++ c₁ :: (l₂ ++ c₂ :: l₃)))[(deduped_contacts l₁).length]? =
        some c₁ ∧
      duplicates_removed (l₁ ++ c₁ :: (l₂ ++ c₂ :: l₃)) =
        duplicates_removed (l₁ ++ c₁ :: (l₂ ++ l₃)) + 1 := by
  refine ⟨dedupe_insert_last l₁ c₁ he h₁, ?_, ?_⟩
  · have hsplit : l₁ ++ c₁ :: (l₂ ++ c₂ :: l₃) = (l₁ ++ c₁ :: l₂) ++ (c₂ :: l₃) := by
      simp
    rw [hsplit]
    unfold deduped_contacts dedupe
    rw [List.length_map, dedupeAux_append (l₁ ++ c₁ :: l₂) (c₂ :: l₃) 0 [] 0]
    obtain ⟨hfB, hgB⟩ := dedupe_state_mid l₁ l₂ c₁ he h₁ h₂
    have he2' : c₂.email ≠ [] := by
      rw [he2]
      exact he
    have hfB2 : findEmail ((dedupeAux (l₁ ++ c₁ :: l₂) 0 [] 0).1) c₂.email =
        some (DKey.email c₁.email, c₁) := by
      rw [he2]
      exact hfB
    rw [dedupeAux_cons_dup c₂ l₃ (0 + (l₁ ++ c₁ :: l₂).length)
      ((dedupeAux (l₁ ++ c₁ :: l₂) 0 [] 0).1) ((dedupeAux (l₁ ++ c₁ :: l₂) 0 [] 0).2)
      (DKey.email c₁.email, c₁) he2' hfB2]
    rw [if_neg (by simp only [Prod.snd]; omega)]
    obtain ⟨_, hg3⟩ := dedupe_preserve l₃ c₁.email h₃ (0 + (l₁ ++ c₁ :: l₂).length + 1)
      ((dedupeAux (l₁ ++ c₁ :: l₂) 0 [] 0).1) ((dedupeAux (l₁ ++ c₁ :: l₂) 0 [] 0).2 + 1)
    rw [List.getElem?_map, hg3 _ c₁ hgB]
    rfl
  · have f1 := (dedupe_count (l₁ ++ c₁ :: (l₂ ++ c₂ :: l₃)) 0 [] 0).2
    have f2 := (dedupe_count (l₁ ++ c₁ :: (l₂ ++ l₃)) 0 [] 0).2
    have hcard : (nonemptyEmails (l₁ ++ c₁ :: (l₂ ++ c₂ :: l₃))).toFinset =
        (nonemptyEmails (l₁ ++ c₁ :: (l₂ ++ l₃))).toFinset := by
      have e1 : l₁ ++ c₁ :: (l₂ ++ c₂ :: l₃) = l₁ ++ [c₁] ++ l₂ ++ [c₂] ++ l₃ := by simp
      have e2 : l₁ ++ c₁ :: (l₂ ++ l₃) = l₁ ++ [c₁] ++ l₂ ++ l₃ := by simp
      rw [e1, e2]
      simp only [nonemptyEmails_append, List.toFinset_append]
      have hc1 : nonemptyEmails [c₁] = [c₁.email] := by
        unfold nonemptyEmails
        simp only [List.map_cons, List.map_nil, List.filter_cons]
        rw [if_pos (by simp [he])]
        rfl
      have hc2 : nonemptyEmails [c₂] = [c₁.email] := by
        unfold nonemptyEmails
        simp only [List.map_cons, List.map_nil, List.filter_cons]
        rw [if_pos (by simp [he2, he]), he2]
        rfl
      rw [hc1, hc2]
      ext a
      simp only [Finset.mem_union, List.mem_toFinset, List.mem_singleton]
      tauto
    rw [hcard] at f1
    have hcount : (l₁ ++ c₁ :: (l₂ ++ c₂ :: l₃)).countP (fun c => !c.email.isEmpty) =
        (l₁ ++ c₁ :: (l₂ ++ l₃)).countP (fun c => !c.email.isEmpty) + 1 := by
      have e1 : l₁ ++ c₁ :: (l₂ ++ c₂ :: l₃) = l₁ ++ [c₁] ++ l₂ ++ [c₂] ++ l₃ := by simp
      have e2 : l₁ ++ c₁ :: (l₂ ++ l₃) = l₁ ++ [c₁] ++ l₂ ++ l₃ := by simp
      rw [e1, e2]
      simp only [List.countP_append]
      have hb2 : List.countP (fun c => !c.email.isEmpty) [c₂] = 1 := by
        simp [List.countP_cons, he2, he]
      rw [hb2]
      omega
    unfold duplicates_removed dedupe
    omega

/-- C1 counterexample: on the concrete input "a@b.c@" the spec's start-anchored
prefix-match semantics accepts (the prefix "a@b.c" matches), but the code's
regex carries an end anchor `$` and rejects, so the claimed equivalence fails. -/
theorem C1_counterexample :
    spec_is_valid_email (codes "a@b.c@") = true ∧
      is_valid_email (codes "a@b.c@") = false := by
  decide

/-- C1 (amended): for every input string, `is_valid_email` returns true if and only
if, after stripping surrounding whitespace, the WHOLE string matches the pattern
(one-or-more non-`@`/non-whitespace characters, `@`, one-or-more, `.`, one-or-more):
the regex is anchored at the start AND at the end, so a trailing mismatch after a
valid prefix does not count as valid. -/
theorem C1_is_valid_email_fullmatch (s : List Nat) :
    is_valid_email s = true ↔ EmailShape (pyStrip s) :=
  emailFullMatch_iff (pyStrip s)

/-- C1 witness: the amended characterisation applied at a concrete accepted input. -/
theorem C1_witness : is_valid_email (codes "ann@mail.com") = true :=
  (C1_is_valid_email_fullmatch (codes "ann@mail.com")).mpr
    ⟨codes "ann", codes "mail", codes "com", by decide, by decide, by decide, by decide,
      by decide, by decide, by decide⟩

/-- C2 counterexample: `clean_company "acme-ltd"` is "Acme-Ltd" — `str.title()`
capitalises the letter after the hyphen — not "Acme-ltd" as the claim (first
letter of each whitespace-delimited word uppercase, all the rest lowercase)
would require. -/
theorem C2_counterexample :
    clean_company (codes "acme-ltd") = codes "Acme-Ltd" ∧
      clean_company (codes "acme-ltd") ≠ codes "Acme-ltd" := by
  decide

/-- C2 (amended): `clean_company` maps the whitespace-normalised input pointwise
by the `str.title()` rule: a letter at position 0 or after a NON-LETTER character
(so also after hyphens or apostrophes inside a word) is uppercased, a letter after
a letter is lowercased, and non-letters are unchanged. -/
theorem C2_clean_company_title_rule (s : List Nat) (i : Nat) :
    (clean_company s)[i]? =
      ((normalise_spaces s)[i]?).map (titleChar (prevAlpha (normalise_spaces s) i)) := by
  rw [clean_company_eq]
  by_cases h : normalise_spaces s = []
  · rw [if_pos h, h]
    simp
  · rw [if_neg h]
    unfold pyTitle
    have hflag : (if i = 0 then false else prevAlpha (normalise_spaces s) i) =
        prevAlpha (normalise_spaces s) i := by
      cases i with
      | zero => simp [prevAlpha]
      | succ j => rw [if_neg (Nat.succ_ne_zero j)]
    rw [pyTitleAux_getElem (normalise_spaces s) false i, hflag]

/-- C3: `clean_phone` keeps only digits and `+`, rewrites exactly a literal leading
`+44` to a single `0`, finally keeps only digits (so the result is all digits);
`0044...` is not rewritten, as the two concrete scenarios show. -/
theorem C3_clean_phone_spec (s : List Nat) :
    clean_phone s =
      keepDigits
        (if List.isPrefixOf [43, 52, 52] (keepDigitsPlus (normalise_spaces s)) then
          48 :: (keepDigitsPlus (normalise_spaces s)).drop 3
        else keepDigitsPlus (normalise_spaces s)) ∧
    (clean_phone s).all isDigitN = true ∧
    clean_phone (codes "+44 7700 900123") = codes "07700900123" ∧
    clean_phone (codes "0044 7700 900123") = codes "00447700900123" :=
  ⟨clean_phone_eq s, clean_phone_all_digits s, by decide, by decide⟩

/-- C4: the deduplicated output's length equals the number of distinct nonempty
cleaned emails plus the number of records whose cleaned email is empty (so
empty-email records are never merged, not even with an identical empty-email
record). -/
theorem C4_dedupe_length (l : List Contact) :
    (deduped_contacts l).length =
      (nonemptyEmails l).toFinset.card + l.countP (fun c => c.email.isEmpty) := by
  unfold deduped_contacts dedupe
  rw [List.length_map, (dedupe_count l 0 [] 0).1]
  have h0 : emailKeys [] = [] := rfl
  rw [h0]
  simp

/-- C5: each of clean_name, clean_email, clean_phone, clean_company is idempotent. -/
theorem C5_cleaners_idempotent (s : List Nat) :
    clean_name (clean_name s) = clean_name s ∧
    clean_email (clean_email s) = clean_email s ∧
    clean_phone (clean_phone s) = clean_phone s ∧
    clean_company (clean_company s) = clean_company s :=
  ⟨clean_name_idem s, clean_email_idem s, clean_phone_idem s, clean_company_idem s⟩

/-- C6 witness: the tie scenario at concrete records with equal scores. -/
theorem C6_witness :
    (deduped_contacts ([] ++ [exContact1]))[(deduped_contacts []).length]? =
        some exContact1 ∧
      (deduped_contacts ([] ++ exContact1 :: ([] ++ exContact3 :: [])))[
        (deduped_contacts []).length]? = some exContact1 ∧
      duplicates_removed ([] ++ exContact1 :: ([] ++ exContact3 :: [])) =
        duplicates_removed ([] ++ exContact1 :: ([] ++ [])) + 1 :=
  C6_dedupe_tie [] [] [] exContact1 exContact3 (by decide) (by decide) (by decide)
    (by decide) (by decide) (by decide)

/-- C7 witness: the replacement scenario at concrete records. -/
theorem C7_witness :
    (deduped_contacts ([] ++ [exContact1]))[(deduped_contacts []).length]? =
        some exContact1 ∧
      (deduped_contacts ([] ++ exContact1 :: ([] ++ exContact2 :: [])))[
        (deduped_contacts []).length]? = some exContact2 :=
  C7_dedupe_replace [] [] [] exContact1 exContact2 (by decide) (by decide) (by decide)
    (by decide) (by decide) (by decide)

/-- C8: a record's invalid_email counter only increments when its cleaned email is
nonempty, and then missing_email does not increment for that record; likewise for
invalid_phone and missing_phone. -/
theorem C8_stats_exclusive (st : Stats) (c : Contact) :
    ((statsStep st c).invalid_email ≠ st.invalid_email →
      c.email ≠ [] ∧ (statsStep st c).missing_email = st.missing_email) ∧
    ((statsStep st c).invalid_phone ≠ st.invalid_phone →
      c.phone ≠ [] ∧ (statsStep st c).missing_phone = st.missing_phone) := by
  by_cases h1 : c.name = [] <;> by_cases h2 : c.email = [] <;>
    by_cases h3 : c.phone = [] <;> by_cases h4 : c.company = [] <;>
    by_cases h5 : is_valid_email c.email = true <;>
    by_cases h6 : is_valid_uk_phone c.phone = true <;>
    simp [statsStep, h1, h2, h3, h4, h5, h6, apply_ite]

/-- C8 witness: a record with a nonempty invalid email and a nonempty invalid
phone increments the invalid counters but not the missing ones. -/
theorem C8_witness :
    (statsStep initStats exContactBad).invalid_email ≠ initStats.invalid_email ∧
    exContactBad.email ≠ [] ∧
    (statsStep initStats exContactBad).missing_email = initStats.missing_email ∧
    (statsStep initStats exContactBad).invalid_phone ≠ initStats.invalid_phone ∧
    exContactBad.phone ≠ [] ∧
    (statsStep initStats exContactBad).missing_phone = initStats.missing_phone := by
  have h := C8_stats_exclusive initStats exContactBad
  have h1 : (statsStep initStats exContactBad).invalid_email ≠ initStats.invalid_email := by
    decide
  have h2 : (statsStep initStats exContactBad).invalid_phone ≠ initStats.invalid_phone := by
    decide
  obtain ⟨he1, he2⟩ := h.1 h1
  obtain ⟨hp1, hp2⟩ := h.2 h2
  exact ⟨h1, he1, he2, h2, hp1, hp2⟩

/-- C9: `load_contacts` fails with a file-not-found error naming the path exactly
when the path is absent from the filesystem (without reading any content), and on
a present path returns the parsed row sequence of the file's content. -/
theorem C9_load_contacts (fs : List (String × String)) (path : String) :
    (fs.lookup path = none →
      load_contacts fs path = Except.error ("Contacts file not found: " ++ path) ∧
      ∃ pre post : String, "Contacts file not found: " ++ path = pre ++ path ++ post) ∧
    (∀ content : String, fs.lookup path = some content →
      load_contacts fs path = Except.ok (dictReader content)) := by
  constructor
  · intro h
    constructor
    · unfold load_contacts
      rw [h]
    · exact ⟨"Contacts file not found: ", "", by simp⟩
  · intro content h
    unfold load_contacts
    rw [h]

/-- C9 witness: a missing path errors with the path in the message; the present
path parses. -/
theorem C9_witness :
    load_contacts exFS "missing.csv" =
        Except.error ("Contacts file not found: " ++ "missing.csv") ∧
      load_contacts exFS "data/contacts_raw.csv" =
        Except.ok (dictReader "name,email\nann,a@b.co") :=
  ⟨((C9_load_contacts exFS "missing.csv").1 rfl).1,
    (C9_load_contacts exFS "data/contacts_raw.csv").2 "name,email\nann,a@b.co" rfl⟩

/-- C10: every record of the deduplicated output equals, field for field, some
record of the input sequence: deduplication selects whole records and never
combines fields of two records. -/
theorem C10_dedupe_subset (l : List Contact) (c : Contact) (h : c ∈ deduped_contacts l) :
    c ∈ l := by
  rcases dedupe_mem l 0 [] 0 c h with h2 | h2
  · simp at h2
  · exact h2

/-- C10 witness: applied at a concrete two-record input. -/
theorem C10_witness :
    exContact1 ∈ deduped_contacts [exContact1, exContact3] ∧
      exContact1 ∈ [exContact1, exContact3] :=
  ⟨by decide, C10_dedupe_subset [exContact1, exContact3] exContact1 (by decide)⟩
